import Mathlib

/-!
Shallow embedding of the student weekly-hours dashboard
(`dashboard.py` and `dashboard(1).py`).

Cells of the persisted ledger are modelled as `Option String` (`none` is a
pandas NaN / missing value).  Raw uploaded cells are modelled by the `Value`
type (missing, timedelta, string, number).  Machine floats are modelled by
`ℚ`; every minute amount produced by the source is an exact decimal, so no
rounding behaviour is lost.  Python string operations (`strip`, `split`,
`replace`, `int()`, `float()`) are modelled character-by-character so that
all definitions are executable and decidable.
-/

/-- A ledger / DataFrame cell: `none` models pandas NaN (missing). -/
abbrev Cell := Option String

/-- Lexicographic comparison of char lists by code point; this is the string
order pandas uses in `sort_values` and `merge` on string keys. -/
def charListLe : List Char → List Char → Bool
  | [], _ => true
  | _ :: _, [] => false
  | a :: as, b :: bs =>
      if a.toNat < b.toNat then true
      else if b.toNat < a.toNat then false
      else charListLe as bs

/-- Cell ordering used by `sort_values("Naam")`: strings lexicographically,
missing values (`NaN`) placed last (pandas default `na_position="last"`). -/
def cellLe : Cell → Cell → Bool
  | some x, some y => charListLe x.data y.data
  | some _, none => true
  | none, some _ => false
  | none, none => true

/-- Python `str.strip()` / the whitespace stripping done by `int()` and
`float()`: drop whitespace from both ends of the character list. -/
def trimChars (cs : List Char) : List Char :=
  ((cs.dropWhile Char.isWhitespace).reverse.dropWhile Char.isWhitespace).reverse

/-- Python `str.split(sep)` for a one-character separator, keeping empty
pieces, as a function on character lists. -/
def splitOnP (p : Char → Bool) : List Char → List (List Char)
  | [] => [[]]
  | a :: rest =>
      let r := splitOnP p rest
      if p a then [] :: r
      else
        match r with
        | [] => [[a]]
        | h :: t => (a :: h) :: t

/-- Value of a most-significant-first digit string (used by `int()`). -/
def digitsVal (cs : List Char) : ℕ :=
  cs.foldl (fun a c => a * 10 + (c.toNat - 48)) 0

/-- A nonempty all-decimal-digit character list. -/
def allDigits (cs : List Char) : Bool :=
  !cs.isEmpty && cs.all Char.isDigit

/-- Python `int(s)`: strip whitespace, optional sign, then decimal digits;
anything else raises (modelled as `none`). -/
def pyInt? (cs : List Char) : Option ℤ :=
  match trimChars cs with
  | [] => none
  | c :: rest =>
      if c = '-' then (if allDigits rest then some (-(digitsVal rest : ℤ)) else none)
      else if c = '+' then (if allDigits rest then some ((digitsVal rest : ℤ)) else none)
      else if allDigits (c :: rest) then some ((digitsVal (c :: rest) : ℤ)) else none

/-- The unsigned mantissa of a Python float literal:
`digits [. digits]` or `. digits`, with at least one digit. -/
def parseMantissa : List Char → Option ℚ
  | cs =>
    let ip := cs.takeWhile Char.isDigit
    match cs.dropWhile Char.isDigit with
    | [] => if ip.isEmpty then none else some ((digitsVal ip : ℚ))
    | '.' :: fp =>
        if fp.all Char.isDigit && !(ip.isEmpty && fp.isEmpty) then
          some ((digitsVal ip : ℚ) + (digitsVal fp : ℚ) / ((10 : ℚ) ^ fp.length))
        else none
    | _ => none

/-- Exponent part of a Python float literal: optional sign then digits. -/
def pyExpInt? : List Char → Option ℤ
  | '-' :: r => if allDigits r then some (-(digitsVal r : ℤ)) else none
  | '+' :: r => if allDigits r then some ((digitsVal r : ℤ)) else none
  | r => if allDigits r then some ((digitsVal r : ℤ)) else none

/-- Python `float(s)` on decimal literals: strip whitespace, optional sign,
mantissa, optional `e`/`E` exponent.  (The special literals `inf` and `nan`
are outside the exact-rational model and not accepted here; no claim in this
development depends on them.) -/
def pyFloat? (cs : List Char) : Option ℚ :=
  let t := trimChars cs
  let signed : Bool × List Char :=
    match t with
    | '-' :: r => (true, r)
    | '+' :: r => (false, r)
    | r => (false, r)
  match splitOnP (fun c => c == 'e' || c == 'E') signed.2 with
  | [mant] =>
      (parseMantissa mant).map (fun q => if signed.1 then -q else q)
  | [mant, ex] =>
      match parseMantissa mant, pyExpInt? ex with
      | some q, some e => some ((if signed.1 then -q else q) * (10 : ℚ) ^ e)
      | _, _ => none
  | _ => none

/-- Little-endian decimal digits of `n`, with explicit fuel (the first
argument) so the recursion is structural; fuel `n` is always sufficient. -/
def natDigitsAux : ℕ → ℕ → List ℕ
  | 0, _ => []
  | _ + 1, 0 => []
  | f + 1, n + 1 => ((n + 1) % 10) :: natDigitsAux f ((n + 1) / 10)

/-- The characters Python `str()` prints for a natural number. -/
def decimalDigitChars (n : ℕ) : List Char :=
  if n = 0 then ['0'] else (natDigitsAux n n).reverse.map Nat.digitChar

/-- Python `str(n)` for a natural number. -/
def natDecimal (n : ℕ) : String :=
  String.mk (decimalDigitChars n)

/-- Python `str(z)` / `f"{z}"` for an integer: decimal digits, `-` sign. -/
def intRepr : ℤ → String
  | .ofNat n => natDecimal n
  | .negSucc n => "-" ++ natDecimal (n + 1)

/-- Python `f"{m:02d}"` for the minutes field: pad a single digit with a
leading zero (a sign character counts towards the width of two). -/
def pad2 (m : ℤ) : String :=
  if 0 ≤ m ∧ m < 10 then "0" ++ intRepr m else intRepr m

/-- A raw uploaded cell, as discriminated by `cell_to_minutes` in
`dashboard.py`: pandas NaN / missing, a timedelta (carried as its total
minutes, i.e. `total_seconds()/60`), a string, or a plain number. -/
inductive Value
  | na
  | td (minutes : ℚ)
  | str (s : String)
  | num (x : ℚ)
deriving Repr, DecidableEq

/-- Python `str()` of a cell, as used by `astype(str)` on the name column and
by `str(check_in)` in `calculate_minutes`.  A missing value (float NaN)
stringifies to the literal string `"nan"`; string cells are themselves.  The
exact text of numeric and timedelta cells is approximated (no claim depends
on it, since name cells in the source data are strings or missing). -/
def pyStr : Value → String
  | .na => "nan"
  | .str s => s
  | .num x => intRepr ⌊x⌋
  | .td m => intRepr ⌊m⌋

/-- Python `s.strip()` on a string. -/
def trimStr (s : String) : String :=
  String.mk (trimChars s.data)

/-- The `H:MM`-string branch of `cell_to_minutes`: `parts = s.split(":")`,
`h = int(parts[0])`, `m = int(parts[1][:2])`, result `h*60 + m`; any
`int()` failure falls through (`none`). -/
def colonParse? (s : List Char) : Option ℚ :=
  match splitOnP (fun c => c == ':') s with
  | p0 :: p1 :: _ =>
      match pyInt? p0, pyInt? (p1.take 2) with
      | some h, some m => some (((h * 60 + m : ℤ) : ℚ))
      | _, _ => none
  | _ => none

/-- The decimal-hours fallback of `cell_to_minutes`: replace `,` by `.`,
parse as float hours, multiply by 60; on failure return `0.0`. -/
def floatFallback (s : List Char) : ℚ :=
  match pyFloat? (s.map (fun c => if c == ',' then '.' else c)) with
  | some hrs => hrs * 60
  | none => 0

/-- `cell_to_minutes` from `dashboard.py` (lines 177-211): converts one raw
cell to minutes.  NaN → 0; timedelta → its total minutes; a string is
stripped, tried as `H:MM` if it contains a colon, then as comma-or-dot
decimal hours, else 0; a bare number is hours. -/
def cell_to_minutes : Value → ℚ
  | .na => 0
  | .td m => m
  | .str v =>
      let s := trimChars v.data
      match (if s.contains ':' then colonParse? s else none) with
      | some r => r
      | none => floatFallback s
  | .num x => x * 60

/-- Python `datetime.strptime(s, "%I:%M%p")`, reduced to minutes since
midnight: a 1-2 digit hour in 1..12, `:`, a 1-2 digit minute in 0..59, then
`AM`/`PM` case-insensitively, consuming the whole string; `12 AM` is hour 0
and `12 PM` is hour 12. -/
def parseIMp? (s : String) : Option ℕ :=
  let cs := s.data
  let hd := cs.takeWhile Char.isDigit
  match cs.dropWhile Char.isDigit with
  | ':' :: r2 =>
      let md := r2.takeWhile Char.isDigit
      match r2.dropWhile Char.isDigit with
      | [p, q] =>
          if (hd.length = 1 ∨ hd.length = 2) ∧ 1 ≤ digitsVal hd ∧ digitsVal hd ≤ 12
              ∧ (md.length = 1 ∨ md.length = 2) ∧ digitsVal md ≤ 59
              ∧ (p = 'A' ∨ p = 'a' ∨ p = 'P' ∨ p = 'p') ∧ (q = 'M' ∨ q = 'm') then
            some ((if p = 'P' ∨ p = 'p' then
                      (if digitsVal hd = 12 then 12 else digitsVal hd + 12)
                    else
                      (if digitsVal hd = 12 then 0 else digitsVal hd)) * 60
                  + digitsVal md)
          else none
      | _ => none
  | _ => none

/-- One check-in/check-out episode of `calculate_minutes` in
`dashboard(1).py` (lines 17-31): if either cell is missing the `if` guard
skips it; otherwise both are parsed with `strptime("%I:%M%p")` (a parse
failure raises and the `except: continue` yields 0) and the duration
`(out - in)` in minutes is added only when it is strictly positive. -/
def episodeMinutes (cin cout : Value) : ℚ :=
  match cin, cout with
  | .na, _ => 0
  | _, .na => 0
  | a, b =>
      match parseIMp? (pyStr a), parseIMp? (pyStr b) with
      | some tin, some tout =>
          if (tin : ℤ) < (tout : ℤ) then (((tout : ℤ) - (tin : ℤ) : ℤ) : ℚ) else 0
      | _, _ => 0

/-- `calculate_minutes` from `dashboard(1).py`: total minutes of one raw row,
summing the episode contributions of the zipped check-in/check-out column
index pairs. -/
def calculate_minutes (pairs : List (ℕ × ℕ)) (row : List Value) : ℚ :=
  pairs.foldl (fun acc p => acc + episodeMinutes (row.getD p.1 .na) (row.getD p.2 .na)) 0

/-- Python `round()` (banker's rounding, round half to even) on an exact
rational, as applied by `int(round(total_minutes))`. -/
def pyRound (q : ℚ) : ℤ :=
  let f := ⌊q⌋
  if q - f < 1 / 2 then f
  else if (1 : ℚ) / 2 < q - f then f + 1
  else if f % 2 = 0 then f else f + 1

/-- `format_minutes_to_hhmm` from `dashboard.py` (lines 25-30): NaN → `""`;
otherwise round to the nearest whole minute and render
`f"{h}:{m:02d}"` where `h, m = divmod(total_minutes, 60)` — Python `divmod`
is floor division, modelled by `Int.fdiv`/`Int.fmod`. -/
def format_minutes_to_hhmm : Option ℚ → String
  | none => ""
  | some q =>
      let t := pyRound q
      intRepr (t.fdiv 60) ++ ":" ++ pad2 (t.fmod 60)

/-- `hhmm_from_minutes` (lines 169-174) is a verbatim duplicate of
`format_minutes_to_hhmm`. -/
def hhmm_from_minutes : Option ℚ → String := format_minutes_to_hhmm

/-- The inverse `H:MM` parse inside `color_threshold` (lines 58-66):
`h, m = val.split(":")` (exactly two parts or a `ValueError`), both parsed
with `int()`; any failure means no classification (`none`). -/
def from_hhmm (val : String) : Option ℤ :=
  match splitOnP (fun c => c == ':') val.data with
  | [h, m] =>
      match pyInt? h, pyInt? m with
      | some hi, some mi => some (hi * 60 + mi)
      | _, _ => none
  | _ => none

/-- The canonical `H:MM` rendering with `0 ≤ m < 60`: hours as Python
`str(int)` (no leading zeros), minutes always two digits. -/
def hhmmStr (h : ℤ) (m : ℕ) : String :=
  intRepr h ++ ":" ++ (if m < 10 then "0" ++ natDecimal m else natDecimal m)

/-- A pandas DataFrame as persisted/merged by the ledger code: a header of
column names and rows of cells positionally aligned with the header. -/
structure DF where
  cols : List String
  rows : List (List Cell)
deriving Repr, DecidableEq

/-- The cell of row `r` in the column named `c` of a frame with header
`cols` (positional lookup by header index). -/
def keyCell (cols : List String) (c : String) (r : List Cell) : Cell :=
  r.getD (cols.findIdx (fun c2 => c2 == c)) none

/-- Join-key equality in `pd.merge`: two key cells match only when both are
present and equal (NaN keys never match anything). -/
def cellMatch : Cell → Cell → Bool
  | some a, some b => a == b
  | _, _ => false

/-- `pd.merge` renaming of the left frame's columns: a non-key column also
present on the right gets the default suffix `_x`. -/
def suffixLeft (leftCols rightCols : List String) (key : String) : List String :=
  leftCols.map (fun c => if c ≠ key ∧ c ∈ rightCols then c ++ "_x" else c)

/-- `pd.merge` columns taken from the right frame: the key is dropped and a
column also present on the left gets the default suffix `_y`. -/
def suffixRight (leftCols rightCols : List String) (key : String) : List String :=
  (rightCols.filter (fun c => !(c == key))).map
    (fun c => if c ∈ leftCols then c ++ "_y" else c)

/-- The rows a left join produces: every left row, paired with each matching
right row (right key column dropped), or padded with NaNs when nothing
matches. -/
def leftJoinRows (left right : DF) (key : String) : List (List Cell) :=
  left.rows.flatMap (fun lr =>
    let ms := right.rows.filter (fun rr =>
      cellMatch (keyCell left.cols key lr) (keyCell right.cols key rr))
    if ms.isEmpty then
      [lr ++ List.replicate (suffixRight left.cols right.cols key).length none]
    else
      ms.map (fun rr => lr ++ rr.eraseIdx (right.cols.findIdx (fun c2 => c2 == key))))

/-- The extra rows an outer join appends: right rows matching no left row,
with the key value placed in the left key column and NaN elsewhere on the
left side. -/
def outerExtraRows (left right : DF) (key : String) : List (List Cell) :=
  (right.rows.filter (fun rr =>
      left.rows.all (fun lr =>
        !cellMatch (keyCell left.cols key lr) (keyCell right.cols key rr)))).map
    (fun rr =>
      (left.cols.map (fun c => if c == key then keyCell right.cols key rr else none))
        ++ rr.eraseIdx (right.cols.findIdx (fun c2 => c2 == key)))

/-- The two `pd.merge` variants the upload block uses. -/
inductive How
  | left
  | outer

/-- `pd.merge(left, right, on=key, how=how)` with default suffixes. -/
def pdMerge (how : How) (left right : DF) (key : String) : DF :=
  ⟨suffixLeft left.cols right.cols key ++ suffixRight left.cols right.cols key,
    leftJoinRows left right key ++
      (match how with
        | .left => []
        | .outer => outerExtraRows left right key)⟩

/-- Column selection `df[cs]`: reorder/select columns by name. -/
def selectCols (df : DF) (cs : List String) : DF :=
  ⟨cs, df.rows.map (fun r => cs.map (fun c => keyCell df.cols c r))⟩

/-- The loop `for col in REQUIRED_BASE_COLS: if col not in cum.columns:
cum[col] = ""` — appends a missing `Naam`/`Coach` column filled with
empty strings. -/
def ensureBase (df : DF) : DF :=
  let add := fun (d : DF) (c : String) =>
    if c ∈ d.cols then d else ⟨d.cols ++ [c], d.rows.map (fun r => r ++ [some ""])⟩
  add (add df "Naam") "Coach"

/-- Row ordering by the cell at index `i` (the `Naam` column after the
reorder), as a proposition for `List.insertionSort`. -/
def rowLe (i : ℕ) (a b : List Cell) : Prop :=
  cellLe (a.getD i none) (b.getD i none) = true

instance (i : ℕ) : DecidableRel (rowLe i) := fun a b => by
  unfold rowLe
  infer_instance

/-- `merged.sort_values("Naam", kind="stable")`: a stable sort of the rows by
the `Naam` cell.  pandas' stable mergesort and insertion sort compute the
same list for a total transitive comparison, so insertion sort (which the
kernel can evaluate) is used. -/
def sortByNaam (df : DF) : DF :=
  ⟨df.cols, List.insertionSort (rowLe (df.cols.findIdx (fun c => c == "Naam"))) df.rows⟩

/-- The ledger-merge block of `dashboard.py` (lines 252-271): ensure the base
columns, left-join onto a fresh/empty ledger or outer-join a grown ledger
with the new week frame on `Naam`, reorder columns to
`Naam, Coach, <the rest in order>`, and stable-sort rows by `Naam`. -/
def mergeBlock (cum new_week : DF) : DF :=
  let cum2 := ensureBase cum
  let merged :=
    if cum2.rows.isEmpty || cum2.cols == ["Naam", "Coach"] then
      pdMerge .left new_week (selectCols cum2 ["Naam", "Coach"]) "Naam"
    else
      pdMerge .outer cum2 new_week "Naam"
  let wk := merged.cols.filter (fun c => !(c == "Naam" || c == "Coach"))
  sortByNaam (selectCols merged (["Naam", "Coach"] ++ wk))

/-- A raw uploaded table: header names and rows of raw cells. -/
structure RawDF where
  cols : List String
  rows : List (List Value)

/-- The trimmed stringified name of a raw row:
`df.iloc[:, 1].astype(str).str.strip()` applied to one row. -/
def rowNameStr (r : List Value) : String :=
  trimStr (pyStr (r.getD 1 .na))

/-- The minutes of one raw row:
`hours_block = df.iloc[:, 11:31]` and
`hours_block.applymap(cell_to_minutes).sum(axis=1)` applied to one row. -/
def rowMinutes (r : List Value) : ℚ :=
  (((r.drop 11).take 20).map cell_to_minutes).sum

/-- The `per_student` construction of `dashboard.py` (lines 228-240): build
the name series and the per-row minutes sums, zip them into a frame, and
keep the rows whose name is non-empty.  (After `astype(str)` the `notna`
filter is vacuously true, including for missing names, which have become the
string `"nan"`.) -/
def perStudent (df : RawDF) : List (String × ℚ) :=
  let nameSeries := df.rows.map rowNameStr
  let minutesSum := df.rows.map rowMinutes
  (nameSeries.zip minutesSum).filter (fun p => decide (0 < p.1.length))

/-- `new_week_df`: the two-column frame `Naam`, `<week_label>` holding the
per-student `H:MM` strings (lines 243-258). -/
def newWeekDF (df : RawDF) (week_label : String) : DF :=
  ⟨["Naam", week_label],
    (perStudent df).map (fun p => [some p.1, some (hhmm_from_minutes (some p.2))])⟩

/-- The upload handler around the aggregation (lines 225-273): a table with
fewer than 31 columns is rejected (`st.error`, modelled as `none`) before
any aggregation or merge; otherwise the per-student table is built and
merged into the ledger. -/
def processUpload (df : RawDF) (cum : DF) (week_label : String) :
    Option (List (String × ℚ) × DF) :=
  if df.cols.length < 31 then none
  else some (perStudent df, mergeBlock cum (newWeekDF df week_label))

/-- The session-state ledger after an upload: unchanged when the upload was
rejected, the merged frame otherwise. -/
def uploadState (df : RawDF) (cum : DF) (week_label : String) : DF :=
  match processUpload df cum week_label with
  | none => cum
  | some r => r.2

/-- The characters of the two-digit minutes field of `hhmmStr`. -/
def minuteChars (m : ℕ) : List Char :=
  if m < 10 then '0' :: decimalDigitChars m else decimalDigitChars m

/-- The rows the grown-ledger outer-join branch produces (before the column
reorder and the sort), for a ledger whose columns are
`Naam, Coach, <wksLen week columns>` and a fresh two-column week frame:
every ledger row extended by its matching new-week cell (or NaN), then one
row per unmatched new-week student with NaN `Coach` and NaN week cells. -/
def outerRowsSpec (cum new_week : DF) (wksLen : ℕ) : List (List Cell) :=
  cum.rows.flatMap (fun lr =>
    let ms := new_week.rows.filter (fun rr =>
      cellMatch (lr.getD 0 none) (rr.getD 0 none))
    if ms.isEmpty then [lr ++ [none]]
    else ms.map (fun rr => lr ++ [rr.getD 1 none]))
  ++ ((new_week.rows.filter (fun rr =>
        cum.rows.all (fun lr => !cellMatch (lr.getD 0 none) (rr.getD 0 none)))).map
      (fun rr => rr.getD 0 none :: none :: (List.replicate wksLen none ++ [rr.getD 1 none])))

/-- The rows the fresh/empty-ledger left-join branch produces (after the
column reorder to `Naam, Coach, <week>`, before the sort): one row per
new-week student, with the ledger's `Coach` for a matching name and NaN
otherwise. -/
def baseRowsSpec (cum new_week : DF) : List (List Cell) :=
  new_week.rows.flatMap (fun nr =>
    let ms := cum.rows.filter (fun br =>
      cellMatch (nr.getD 0 none) (br.getD 0 none))
    if ms.isEmpty then [[nr.getD 0 none, none, nr.getD 1 none]]
    else ms.map (fun br => [nr.getD 0 none, br.getD 1 none, nr.getD 1 none]))

/-! ### Totality and transitivity of the row order used by the sort -/

theorem charListLe_total : ∀ a b : List Char, charListLe a b = true ∨ charListLe b a = true := by
  intro a
  induction a with
  | nil => intro b; left; rfl
  | cons x xs ih =>
    intro b
    cases b with
    | nil => right; rfl
    | cons y ys =>
      simp only [charListLe]
      rcases Nat.lt_trichotomy x.toNat y.toNat with h | h | h
      · left; simp [h]
      · have hxy : ¬ x.toNat < y.toNat := by omega
        have hyx : ¬ y.toNat < x.toNat := by omega
        rcases ih ys with h2 | h2
        · left; simp [hxy, hyx, h2]
        · right; simp [hxy, hyx, h2]
      · right; simp [h, Nat.lt_asymm h]

theorem charListLe_trans :
    ∀ a b c : List Char,
      charListLe a b = true → charListLe b c = true → charListLe a c = true := by
  intro a
  induction a with
  | nil => intro b c _ _; rfl
  | cons x xs ih =>
    intro b c hab hbc
    cases b with
    | nil => simp [charListLe] at hab
    | cons y ys =>
      cases c with
      | nil => simp [charListLe] at hbc
      | cons z zs =>
        simp only [charListLe] at hab hbc ⊢
        by_cases h1 : x.toNat < y.toNat <;> by_cases h2 : y.toNat < z.toNat <;>
          simp only [h1, h2, if_true, if_false, ite_true, ite_false] at hab hbc
        · simp [show x.toNat < z.toNat by omega]
        · by_cases h4 : z.toNat < y.toNat
          · simp [h4] at hbc
          · have : y.toNat = z.toNat := by omega
            simp [show x.toNat < z.toNat by omega]
        · by_cases h4 : y.toNat < x.toNat
          · simp [h4] at hab
          · have : x.toNat = y.toNat := by omega
            simp [show x.toNat < z.toNat by omega]
        · by_cases h4 : y.toNat < x.toNat
          · simp [h4] at hab
          · by_cases h5 : z.toNat < y.toNat
            · simp [h5] at hbc
            · rw [if_neg h4] at hab
              rw [if_neg h5] at hbc
              have hxz : ¬ x.toNat < z.toNat := by omega
              have hzx : ¬ z.toNat < x.toNat := by omega
              simp only [hxz, hzx, if_false, ite_false]
              exact ih ys zs hab hbc

theorem cellLe_total : ∀ a b : Cell, cellLe a b = true ∨ cellLe b a = true := by
  intro a b
  cases a with
  | none => cases b with
    | none => left; rfl
    | some y => right; rfl
  | some x => cases b with
    | none => left; rfl
    | some y => exact charListLe_total x.data y.data

theorem cellLe_trans :
    ∀ a b c : Cell, cellLe a b = true → cellLe b c = true → cellLe a c = true := by
  intro a b c hab hbc
  cases a with
  | none =>
    cases b with
    | none => cases c <;> simp_all [cellLe]
    | some y => simp [cellLe] at hab
  | some x =>
    cases b with
    | none =>
      cases c with
      | none => rfl
      | some z => simp [cellLe] at hbc
    | some y =>
      cases c with
      | none => rfl
      | some z => exact charListLe_trans x.data y.data z.data hab hbc

theorem rowLe_total (i : ℕ) : ∀ a b : List Cell, rowLe i a b ∨ rowLe i b a := by
  intro a b
  exact cellLe_total (a.getD i none) (b.getD i none)

theorem rowLe_trans (i : ℕ) :
    ∀ a b c : List Cell, rowLe i a b → rowLe i b c → rowLe i a c := by
  intro a b c hab hbc
  exact cellLe_trans _ _ _ hab hbc

theorem sortByNaam_sorted (df : DF) :
    (sortByNaam df).rows.Pairwise (rowLe (df.cols.findIdx (fun c => c == "Naam"))) := by
  haveI : IsTotal (List Cell) (rowLe (df.cols.findIdx (fun c => c == "Naam"))) :=
    ⟨rowLe_total _⟩
  haveI : IsTrans (List Cell) (rowLe (df.cols.findIdx (fun c => c == "Naam"))) :=
    ⟨rowLe_trans _⟩
  exact List.sorted_insertionSort _ df.rows

theorem sortByNaam_perm (df : DF) : (sortByNaam df).rows.Perm df.rows :=
  List.perm_insertionSort _ df.rows

theorem sortByNaam_cols (df : DF) : (sortByNaam df).cols = df.cols := rfl

/-! ### Decimal rendering and the Python int() round trip -/

theorem natDigitsAux_sound :
    ∀ f n, n ≤ f →
      List.foldr (fun d acc => acc * 10 + d) 0 (natDigitsAux f n) = n := by
  intro f
  induction f with
  | zero => intro n hn; interval_cases n; rfl
  | succ f ih =>
    intro n hn
    cases n with
    | zero => rfl
    | succ m =>
      have hdiv : (m + 1) / 10 < m + 1 := Nat.div_lt_self (Nat.succ_pos m) (by norm_num)
      have hle : (m + 1) / 10 ≤ f := by omega
      simp only [natDigitsAux, List.foldr_cons]
      rw [ih _ hle]
      omega

theorem natDigitsAux_lt10 : ∀ f n d, d ∈ natDigitsAux f n → d < 10 := by
  intro f
  induction f with
  | zero => intro n d h; simp [natDigitsAux] at h
  | succ f ih =>
    intro n d h
    cases n with
    | zero => simp [natDigitsAux] at h
    | succ m =>
      simp only [natDigitsAux, List.mem_cons] at h
      rcases h with h | h
      · omega
      · exact ih _ _ h

theorem digitChar_toNat (d : ℕ) (h : d < 10) : (Nat.digitChar d).toNat = 48 + d := by
  interval_cases d <;> decide

theorem digitChar_isDigit (d : ℕ) (h : d < 10) : (Nat.digitChar d).isDigit = true := by
  interval_cases d <;> decide

theorem digitChar_not_ws (d : ℕ) (h : d < 10) : (Nat.digitChar d).isWhitespace = false := by
  interval_cases d <;> decide

theorem digitChar_ne_minus (d : ℕ) (h : d < 10) : Nat.digitChar d ≠ '-' := by
  interval_cases d <;> decide

theorem digitChar_ne_plus (d : ℕ) (h : d < 10) : Nat.digitChar d ≠ '+' := by
  interval_cases d <;> decide

theorem digitChar_ne_colon (d : ℕ) (h : d < 10) : Nat.digitChar d ≠ ':' := by
  interval_cases d <;> decide

theorem mem_decimalDigitChars (n : ℕ) (c : Char) (hc : c ∈ decimalDigitChars n) :
    ∃ d, d < 10 ∧ c = Nat.digitChar d := by
  unfold decimalDigitChars at hc
  by_cases h : n = 0
  · simp [h] at hc
    exact ⟨0, by norm_num, by simp [hc]; rfl⟩
  · simp only [h, if_false, ite_false, List.mem_map, List.mem_reverse] at hc
    obtain ⟨d, hd, rfl⟩ := hc
    exact ⟨d, natDigitsAux_lt10 _ _ _ hd, rfl⟩

theorem decimalDigitChars_ne_nil (n : ℕ) : decimalDigitChars n ≠ [] := by
  unfold decimalDigitChars
  by_cases h : n = 0
  · simp [h]
  · simp only [h, if_false, ite_false]
    cases n with
    | zero => exact absurd rfl h
    | succ m => simp [natDigitsAux]

theorem allDigits_decimalDigitChars (n : ℕ) : allDigits (decimalDigitChars n) = true := by
  unfold allDigits
  rw [Bool.and_eq_true, List.all_eq_true]
  constructor
  · cases hD : decimalDigitChars n with
    | nil => exact absurd hD (decimalDigitChars_ne_nil n)
    | cons a l => rfl
  · intro c hc
    obtain ⟨d, hd, rfl⟩ := mem_decimalDigitChars n c hc
    exact digitChar_isDigit d hd

theorem foldl_digits_eq :
    ∀ (l : List ℕ) (a : ℕ), (∀ d ∈ l, d < 10) →
      List.foldl (fun acc d => acc * 10 + ((Nat.digitChar d).toNat - 48)) a l
        = List.foldl (fun acc d => acc * 10 + d) a l := by
  intro l
  induction l with
  | nil => intro a _; rfl
  | cons d ds ih =>
    intro a h
    simp only [List.foldl_cons]
    rw [digitChar_toNat d (h d (by simp))]
    have h48 : 48 + d - 48 = d := by omega
    rw [h48]
    exact ih _ (fun x hx => h x (by simp [hx]))

theorem digitsVal_decimalDigitChars (n : ℕ) : digitsVal (decimalDigitChars n) = n := by
  unfold digitsVal decimalDigitChars
  by_cases h : n = 0
  · subst h; rfl
  · simp only [h, if_false, ite_false]
    rw [List.foldl_map]
    rw [foldl_digits_eq _ _ (fun d hd => natDigitsAux_lt10 n n d (List.mem_reverse.mp hd))]
    rw [List.foldl_reverse]
    exact natDigitsAux_sound n n (le_refl n)

theorem dropWhile_eq_self_of_all {p : Char → Bool} :
    ∀ l : List Char, (∀ c ∈ l, p c = false) → l.dropWhile p = l := by
  intro l h
  cases l with
  | nil => rfl
  | cons a l2 =>
    rw [List.dropWhile_cons, h a (by simp)]
    simp

theorem trimChars_eq_self (cs : List Char) (h : ∀ c ∈ cs, c.isWhitespace = false) :
    trimChars cs = cs := by
  unfold trimChars
  rw [dropWhile_eq_self_of_all cs h]
  rw [dropWhile_eq_self_of_all cs.reverse (fun c hc => h c (List.mem_reverse.mp hc))]
  exact List.reverse_reverse cs

theorem decimalDigitChars_not_ws (n : ℕ) :
    ∀ c ∈ decimalDigitChars n, c.isWhitespace = false := by
  intro c hc
  obtain ⟨d, hd, rfl⟩ := mem_decimalDigitChars n c hc
  exact digitChar_not_ws d hd

theorem pyInt?_decimalDigitChars (n : ℕ) : pyInt? (decimalDigitChars n) = some (n : ℤ) := by
  unfold pyInt?
  rw [trimChars_eq_self _ (decimalDigitChars_not_ws n)]
  cases hD : decimalDigitChars n with
  | nil => exact absurd hD (decimalDigitChars_ne_nil n)
  | cons c cs2 =>
    obtain ⟨d, hd, rfl⟩ := mem_decimalDigitChars n c (by rw [hD]; simp)
    simp only
    rw [if_neg (digitChar_ne_minus d hd), if_neg (digitChar_ne_plus d hd)]
    rw [← hD]
    rw [if_pos (allDigits_decimalDigitChars n)]
    rw [digitsVal_decimalDigitChars]

theorem pyInt?_natDecimal (n : ℕ) : pyInt? (natDecimal n).data = some (n : ℤ) := by
  have : (natDecimal n).data = decimalDigitChars n := rfl
  rw [this, pyInt?_decimalDigitChars]

theorem pyInt?_intRepr (z : ℤ) : pyInt? (intRepr z).data = some z := by
  cases z with
  | ofNat n => exact pyInt?_natDecimal n
  | negSucc n =>
    have hdata : (intRepr (Int.negSucc n)).data = '-' :: decimalDigitChars (n + 1) := by
      show (("-" : String) ++ natDecimal (n + 1)).data = _
      rw [String.data_append]
      rfl
    unfold pyInt?
    rw [hdata]
    rw [trimChars_eq_self _ (by
      intro c hc
      rcases List.mem_cons.mp hc with h | h
      · subst h; decide
      · exact decimalDigitChars_not_ws (n + 1) c h)]
    simp only [if_pos rfl]
    rw [if_pos (allDigits_decimalDigitChars (n + 1))]
    rw [digitsVal_decimalDigitChars]
    rw [Int.negSucc_eq]
    norm_num

/-! ### Splitting and the H:MM round trip -/

theorem splitOnP_no_sep (p : Char → Bool) :
    ∀ cs : List Char, (∀ c ∈ cs, p c = false) → splitOnP p cs = [cs] := by
  intro cs h
  induction cs with
  | nil => rfl
  | cons a rest ih =>
    have ha : p a = false := h a (by simp)
    have hr : splitOnP p rest = [rest] := ih (fun c hc => h c (by simp [hc]))
    simp only [splitOnP, ha, hr]
    simp

theorem splitOnP_append (p : Char → Bool) (s : Char) (hs : p s = true) :
    ∀ xs ys : List Char, (∀ c ∈ xs, p c = false) →
      splitOnP p (xs ++ s :: ys) = xs :: splitOnP p ys := by
  intro xs
  induction xs with
  | nil =>
    intro ys _
    simp only [List.nil_append, splitOnP, hs]
    simp
  | cons a xs ih =>
    intro ys h
    have ha : p a = false := h a (by simp)
    have hr := ih ys (fun c hc => h c (by simp [hc]))
    simp only [List.cons_append, splitOnP, ha, List.append_eq]
    rw [hr]
    simp

theorem intRepr_ofNat (m : ℕ) : intRepr (m : ℤ) = natDecimal m := rfl

theorem intRepr_no_colon (z : ℤ) : ∀ c ∈ (intRepr z).data, (c == ':') = false := by
  intro c hc
  rw [beq_eq_false_iff_ne]
  cases z with
  | ofNat n =>
    obtain ⟨d, hd, rfl⟩ := mem_decimalDigitChars n c hc
    exact digitChar_ne_colon d hd
  | negSucc n =>
    have hdata : (intRepr (Int.negSucc n)).data = '-' :: decimalDigitChars (n + 1) := by
      show (("-" : String) ++ natDecimal (n + 1)).data = _
      rw [String.data_append]
      rfl
    rw [hdata] at hc
    rcases List.mem_cons.mp hc with h | h
    · subst h; decide
    · obtain ⟨d, hd, rfl⟩ := mem_decimalDigitChars (n + 1) c h
      exact digitChar_ne_colon d hd

theorem minuteChars_eq_data (m : ℕ) :
    (if m < 10 then ("0" : String) ++ natDecimal m else natDecimal m).data = minuteChars m := by
  unfold minuteChars
  by_cases h : m < 10
  · rw [if_pos h, if_pos h, String.data_append]
    rfl
  · rw [if_neg h, if_neg h]
    rfl

theorem minuteChars_no_colon (m : ℕ) : ∀ c ∈ minuteChars m, (c == ':') = false := by
  intro c hc
  rw [beq_eq_false_iff_ne]
  unfold minuteChars at hc
  by_cases h : m < 10
  · rw [if_pos h] at hc
    rcases List.mem_cons.mp hc with h2 | h2
    · subst h2; decide
    · obtain ⟨d, hd, rfl⟩ := mem_decimalDigitChars m c h2
      exact digitChar_ne_colon d hd
  · rw [if_neg h] at hc
    obtain ⟨d, hd, rfl⟩ := mem_decimalDigitChars m c hc
    exact digitChar_ne_colon d hd

theorem digitsVal_cons_zero (l : List Char) : digitsVal ('0' :: l) = digitsVal l := by
  have h0 : '0'.toNat - 48 = 0 := by decide
  show List.foldl _ (0 * 10 + ('0'.toNat - 48)) l = List.foldl _ 0 l
  rw [h0]

theorem pyInt?_minuteChars (m : ℕ) : pyInt? (minuteChars m) = some (m : ℤ) := by
  unfold minuteChars
  by_cases h : m < 10
  · rw [if_pos h]
    unfold pyInt?
    rw [trimChars_eq_self _ (by
      intro c hc
      rcases List.mem_cons.mp hc with h2 | h2
      · subst h2; decide
      · exact decimalDigitChars_not_ws m c h2)]
    simp only
    rw [if_neg (by decide : ¬ ('0' : Char) = '-'), if_neg (by decide : ¬ ('0' : Char) = '+')]
    rw [if_pos (by
      unfold allDigits
      rw [Bool.and_eq_true, List.all_eq_true]
      refine ⟨rfl, ?_⟩
      intro c hc
      rcases List.mem_cons.mp hc with h2 | h2
      · subst h2; decide
      · obtain ⟨d, hd, rfl⟩ := mem_decimalDigitChars m c h2
        exact digitChar_isDigit d hd)]
    rw [digitsVal_cons_zero, digitsVal_decimalDigitChars]
  · rw [if_neg h]
    exact pyInt?_decimalDigitChars m

theorem hhmmStr_data (h : ℤ) (m : ℕ) :
    (hhmmStr h m).data = (intRepr h).data ++ ':' :: minuteChars m := by
  unfold hhmmStr
  rw [String.data_append, String.data_append, minuteChars_eq_data]
  simp

theorem from_hhmm_hhmmStr (h : ℤ) (m : ℕ) :
    from_hhmm (hhmmStr h m) = some (h * 60 + m) := by
  unfold from_hhmm
  rw [hhmmStr_data]
  rw [splitOnP_append _ ':' (by decide) _ _ (intRepr_no_colon h)]
  rw [splitOnP_no_sep _ _ (minuteChars_no_colon m)]
  simp only
  rw [pyInt?_intRepr, pyInt?_minuteChars]

theorem format_some (q : ℚ) :
    format_minutes_to_hhmm (some q)
      = intRepr ((pyRound q).fdiv 60) ++ ":" ++ pad2 ((pyRound q).fmod 60) := rfl

theorem pyRound_intCast (n : ℤ) : pyRound ((n : ℤ) : ℚ) = n := by
  unfold pyRound
  rw [Int.floor_intCast]
  norm_num

theorem format_hhmm_exact (h : ℤ) (m : ℕ) (hm : m < 60) :
    format_minutes_to_hhmm (some ((h * 60 + (m : ℤ) : ℤ) : ℚ)) = hhmmStr h m := by
  rw [format_some]
  rw [pyRound_intCast]
  rw [Int.fdiv_eq_ediv _ (by norm_num : (0:ℤ) ≤ 60)]
  rw [Int.fmod_eq_emod _ (by norm_num : (0:ℤ) ≤ 60)]
  have hdiv : (h * 60 + (m : ℤ)) / 60 = h := by omega
  have hmod : (h * 60 + (m : ℤ)) % 60 = (m : ℤ) := by omega
  rw [hdiv, hmod]
  unfold hhmmStr pad2
  by_cases hlt : m < 10
  · rw [if_pos ⟨Int.ofNat_nonneg m, by exact_mod_cast hlt⟩, if_pos hlt]
    rfl
  · rw [if_neg (by
      intro hcon
      exact hlt (by exact_mod_cast hcon.2)), if_neg hlt]
    rfl

/-! ### Column lookup and merge-block characterisation -/

theorem findIdx_cons_self (c0 : String) (ct : List String) :
    (c0 :: ct).findIdx (fun c2 => c2 == c0) = 0 := by
  rw [List.findIdx_cons, show (c0 == c0) = true from beq_self_eq_true c0]
  rfl

theorem findIdx_cons_ne (c0 c : String) (ct : List String) (h : c0 ≠ c) :
    (c0 :: ct).findIdx (fun c2 => c2 == c) = ct.findIdx (fun c2 => c2 == c) + 1 := by
  rw [List.findIdx_cons, show (c0 == c) = false from beq_eq_false_iff_ne.mpr h]
  rfl

theorem keyCell_head (c0 : String) (ct : List String) (r : List Cell) :
    keyCell (c0 :: ct) c0 r = r.getD 0 none := by
  unfold keyCell
  rw [findIdx_cons_self]

theorem keyCell_tail (c0 c : String) (ct : List String) (a : Cell) (rt : List Cell)
    (h : c0 ≠ c) : keyCell (c0 :: ct) c (a :: rt) = keyCell ct c rt := by
  unfold keyCell
  rw [findIdx_cons_ne c0 c ct h]
  rfl

theorem map_keyCell_self :
    ∀ (cols : List String) (r : List Cell), cols.Nodup → r.length = cols.length →
      cols.map (fun c => keyCell cols c r) = r := by
  intro cols
  induction cols with
  | nil =>
    intro r _ hlen
    rw [show ([] : List String).length = 0 from rfl, List.length_eq_zero] at hlen
    simp [hlen]
  | cons c0 ct ih =>
    intro r hnd hlen
    cases r with
    | nil => simp at hlen
    | cons a rt =>
      rw [List.nodup_cons] at hnd
      simp only [List.map_cons]
      rw [keyCell_head]
      rw [List.getD_cons_zero]
      congr 1
      have hstep : ∀ c ∈ ct, keyCell (c0 :: ct) c (a :: rt) = keyCell ct c rt :=
        fun c hcmem => keyCell_tail c0 c ct a rt (fun he => hnd.1 (he ▸ hcmem))
      rw [List.map_congr_left hstep]
      exact ih rt hnd.2 (by simpa using hlen)

theorem selectCols_self (df : DF) (hnd : df.cols.Nodup)
    (hlen : ∀ r ∈ df.rows, r.length = df.cols.length) :
    selectCols df df.cols = df := by
  cases df with
  | mk cols rows =>
    unfold selectCols
    simp only
    congr 1
    have h3 : ∀ r ∈ rows, cols.map (fun c => keyCell cols c r) = id r :=
      fun r hr => map_keyCell_self cols r hnd (hlen r hr)
    rw [List.map_congr_left h3, List.map_id]

theorem ensureBase_eq_self (df : DF) (h1 : "Naam" ∈ df.cols) (h2 : "Coach" ∈ df.cols) :
    ensureBase df = df := by
  unfold ensureBase
  simp [h1, h2]

theorem eraseIdx_zero_of_len2 (r : List Cell) (h : r.length = 2) :
    r.eraseIdx 0 = [r.getD 1 none] := by
  obtain ⟨a, b, rfl⟩ := List.length_eq_two.mp h
  rfl

theorem mergeBlock_outer_eq (cum new_week : DF) (wks : List String) (w : String)
    (hc : cum.cols = "Naam" :: "Coach" :: wks)
    (hwks : wks ≠ [])
    (hrows : cum.rows ≠ [])
    (hnd : cum.cols.Nodup)
    (hnw : new_week.cols = ["Naam", w])
    (hfresh : w ∉ cum.cols)
    (hlen : ∀ r ∈ cum.rows, r.length = 2 + wks.length)
    (hlennew : ∀ r ∈ new_week.rows, r.length = 2) :
    mergeBlock cum new_week =
      ⟨"Naam" :: "Coach" :: (wks ++ [w]),
        List.insertionSort (rowLe 0) (outerRowsSpec cum new_week wks.length)⟩ := by
  have hcols : ("Naam" :: "Coach" :: wks).Nodup := hc ▸ hnd
  have hfr : w ∉ ("Naam" :: "Coach" :: wks) := hc ▸ hfresh
  have hfr2 : w ≠ "Naam" ∧ w ≠ "Coach" ∧ w ∉ wks := by
    simp only [List.mem_cons, not_or] at hfr
    exact hfr
  have h1 : "Naam" ∉ ("Coach" :: wks) := (List.nodup_cons.mp hcols).1
  have h2 : ("Coach" :: wks).Nodup := (List.nodup_cons.mp hcols).2
  have hCwks : "Coach" ∉ wks := (List.nodup_cons.mp h2).1
  have hwksnd : wks.Nodup := (List.nodup_cons.mp h2).2
  have hNwks : "Naam" ∉ wks := fun hm => h1 (List.mem_cons.mpr (Or.inr hm))
  have hens : ensureBase cum = cum :=
    ensureBase_eq_self cum (by rw [hc]; simp) (by rw [hc]; simp)
  have hbeq : (cum.cols == ["Naam", "Coach"]) = false := by
    refine beq_eq_false_iff_ne.mpr ?_
    rw [hc]
    intro heq
    injection heq with _ h2a
    injection h2a with _ h3a
    exact hwks h3a
  have hkeyL : ∀ lr : List Cell, keyCell cum.cols "Naam" lr = lr.getD 0 none := by
    intro lr
    rw [hc]
    exact keyCell_head _ _ lr
  have hkeyR : ∀ rr : List Cell, keyCell new_week.cols "Naam" rr = rr.getD 0 none := by
    intro rr
    rw [hnw]
    exact keyCell_head _ _ rr
  have hsl : suffixLeft cum.cols new_week.cols "Naam" = cum.cols := by
    unfold suffixLeft
    have hstep : ∀ c ∈ cum.cols,
        (if c ≠ "Naam" ∧ c ∈ new_week.cols then c ++ "_x" else c) = id c := by
      intro c hcmem
      rw [if_neg]
      · rfl
      rintro ⟨hcn, hcm⟩
      rw [hnw] at hcm
      simp only [List.mem_cons, List.not_mem_nil, or_false] at hcm
      rcases hcm with h | h
      · exact hcn h
      · rw [h] at hcmem
        exact hfresh hcmem
    rw [List.map_congr_left hstep, List.map_id]
  have hsr : suffixRight cum.cols new_week.cols "Naam" = [w] := by
    unfold suffixRight
    rw [hnw]
    rw [show List.filter (fun c => !(c == "Naam")) ["Naam", w] = [w] by
      simp [List.filter_cons, beq_eq_false_iff_ne.mpr hfr2.1]]
    simp only [List.map_cons, List.map_nil]
    rw [if_neg hfresh]
  have hrees : ∀ rr ∈ new_week.rows,
      rr.eraseIdx (new_week.cols.findIdx (fun c2 => c2 == "Naam")) = [rr.getD 1 none] := by
    intro rr hrr
    rw [hnw, findIdx_cons_self]
    exact eraseIdx_zero_of_len2 rr (hlennew rr hrr)
  have hljr : leftJoinRows cum new_week "Naam" =
      cum.rows.flatMap (fun lr =>
        let ms := new_week.rows.filter (fun rr =>
          cellMatch (lr.getD 0 none) (rr.getD 0 none))
        if ms.isEmpty then [lr ++ [none]]
        else ms.map (fun rr => lr ++ [rr.getD 1 none])) := by
    unfold leftJoinRows
    apply List.flatMap_congr
    intro lr _
    simp only [hkeyL, hkeyR, hsr, List.length_cons, List.length_nil, List.replicate]
    congr 1
    apply List.map_congr_left
    intro rr hrr
    rw [hrees rr (List.mem_filter.mp hrr).1]
  have hoer : outerExtraRows cum new_week "Naam" =
      (new_week.rows.filter (fun rr =>
          cum.rows.all (fun lr => !cellMatch (lr.getD 0 none) (rr.getD 0 none)))).map
        (fun rr => rr.getD 0 none :: none :: (List.replicate wks.length none ++ [rr.getD 1 none])) := by
    unfold outerExtraRows
    simp only [hkeyL, hkeyR]
    apply List.map_congr_left
    intro rr hrr
    rw [hrees rr (List.mem_filter.mp hrr).1]
    rw [hc]
    simp only [List.map_cons]
    rw [show (("Naam" : String) == "Naam") = true from beq_self_eq_true _]
    rw [show (("Coach" : String) == "Naam") = false from beq_eq_false_iff_ne.mpr (by decide)]
    have hwmap : wks.map (fun c => if (c == "Naam") = true then rr.getD 0 none else none)
        = List.replicate wks.length none := by
      rw [show List.replicate wks.length (none : Cell) = wks.map (Function.const String none) from
        (List.map_const wks none).symm]
      apply List.map_congr_left
      intro c hcm
      rw [show (c == "Naam") = false from beq_eq_false_iff_ne.mpr (fun he => hNwks (he ▸ hcm))]
      rfl
    simp only [if_true, if_false, Bool.false_eq_true, ite_true, ite_false]
    rw [hwmap]
    rfl
  have hpd : pdMerge .outer cum new_week "Naam" =
      ⟨cum.cols ++ [w], outerRowsSpec cum new_week wks.length⟩ := by
    unfold pdMerge
    rw [hsl, hsr, hljr, hoer]
    rfl
  have hlenspec : ∀ r ∈ outerRowsSpec cum new_week wks.length, r.length = 3 + wks.length := by
    intro r hr
    unfold outerRowsSpec at hr
    rcases List.mem_append.mp hr with hr | hr
    · obtain ⟨lr, hlr, hrin⟩ := List.mem_flatMap.mp hr
      simp only at hrin
      by_cases hms : (new_week.rows.filter (fun rr =>
          cellMatch (lr.getD 0 none) (rr.getD 0 none))).isEmpty
      · rw [if_pos hms] at hrin
        simp only [List.mem_cons, List.not_mem_nil, or_false] at hrin
        rw [hrin, List.length_append, hlen lr hlr]
        simp only [List.length_singleton]
        omega
      · rw [if_neg hms] at hrin
        obtain ⟨rr, _, hreq⟩ := List.mem_map.mp hrin
        rw [← hreq, List.length_append, hlen lr hlr]
        simp only [List.length_singleton]
        omega
    · obtain ⟨rr, _, hreq⟩ := List.mem_map.mp hr
      rw [← hreq]
      simp [List.length_append, List.length_replicate]
      omega
  have hndm : ("Naam" :: "Coach" :: (wks ++ [w])).Nodup := by
    rw [List.nodup_cons, List.nodup_cons]
    refine ⟨?_, ?_, ?_⟩
    · intro hm
      rcases List.mem_cons.mp hm with he | hm2
      · exact absurd he (by decide)
      rcases List.mem_append.mp hm2 with hm3 | hm3
      · exact hNwks hm3
      · rw [List.mem_singleton] at hm3
        exact hfr2.1 hm3.symm
    · intro hm
      rcases List.mem_append.mp hm with hm3 | hm3
      · exact hCwks hm3
      · rw [List.mem_singleton] at hm3
        exact hfr2.2.1 hm3.symm
    · rw [List.nodup_append]
      exact ⟨hwksnd, List.nodup_singleton w, by
        intro x hx hxw
        rw [List.mem_singleton] at hxw
        exact hfr2.2.2 (hxw ▸ hx)⟩
  have hfil : (cum.cols ++ [w]).filter (fun c => !(c == "Naam" || c == "Coach")) = wks ++ [w] := by
    rw [hc, List.filter_append]
    congr 1
    · rw [List.filter_cons, List.filter_cons]
      rw [show ((("Naam" : String) == "Naam" || ("Naam" : String) == "Coach") = true) by simp]
      rw [show ((("Coach" : String) == "Naam" || ("Coach" : String) == "Coach") = true) by simp]
      simp only [Bool.not_true, Bool.false_eq_true, if_false, ite_false]
      rw [List.filter_eq_self]
      intro c hcm
      rw [show (c == "Naam") = false from beq_eq_false_iff_ne.mpr (fun he => hNwks (he ▸ hcm))]
      rw [show (c == "Coach") = false from beq_eq_false_iff_ne.mpr (fun he => hCwks (he ▸ hcm))]
      rfl
    · rw [List.filter_cons]
      rw [show (w == "Naam") = false from beq_eq_false_iff_ne.mpr hfr2.1]
      rw [show (w == "Coach") = false from beq_eq_false_iff_ne.mpr hfr2.2.1]
      rfl
  unfold mergeBlock
  simp only [hens, List.isEmpty_eq_false.mpr hrows, hbeq, Bool.or_self, Bool.false_eq_true,
    if_false, ite_false]
  rw [hpd]
  have hcolsfull : cum.cols ++ [w] = "Naam" :: "Coach" :: (wks ++ [w]) := by
    rw [hc]
    rfl
  have hsel : selectCols ⟨cum.cols ++ [w], outerRowsSpec cum new_week wks.length⟩
      (["Naam", "Coach"] ++ (cum.cols ++ [w]).filter (fun c => !(c == "Naam" || c == "Coach")))
      = ⟨cum.cols ++ [w], outerRowsSpec cum new_week wks.length⟩ := by
    rw [hfil]
    rw [show (["Naam", "Coach"] ++ (wks ++ [w]) : List String) = cum.cols ++ [w] by
      rw [hcolsfull]; rfl]
    apply selectCols_self
    · rw [hcolsfull]
      exact hndm
    · intro r hr
      rw [hcolsfull]
      simp only [List.length_cons, List.length_append, List.length_singleton, List.length_nil]
      rw [hlenspec r hr]
      omega
  rw [hsel]
  unfold sortByNaam
  rw [hcolsfull, findIdx_cons_self]

theorem mergeBlock_base_eq (cum new_week : DF) (w : String)
    (hc : cum.cols = ["Naam", "Coach"])
    (hnw : new_week.cols = ["Naam", w])
    (hwN : w ≠ "Naam") (hwC : w ≠ "Coach")
    (hlen : ∀ r ∈ cum.rows, r.length = 2)
    (hlennew : ∀ r ∈ new_week.rows, r.length = 2) :
    mergeBlock cum new_week =
      ⟨["Naam", "Coach", w], List.insertionSort (rowLe 0) (baseRowsSpec cum new_week)⟩ := by
  have hens : ensureBase cum = cum :=
    ensureBase_eq_self cum (by rw [hc]; simp) (by rw [hc]; simp)
  have hright2 : selectCols cum ["Naam", "Coach"] = cum := by
    rw [← hc]
    exact selectCols_self cum (by rw [hc]; decide)
      (fun r hr => by rw [hc]; exact hlen r hr)
  have hkeyL : ∀ nr : List Cell, keyCell new_week.cols "Naam" nr = nr.getD 0 none := by
    intro nr
    rw [hnw]
    exact keyCell_head _ _ nr
  have hkeyR : ∀ br : List Cell, keyCell cum.cols "Naam" br = br.getD 0 none := by
    intro br
    rw [hc]
    exact keyCell_head _ _ br
  have hsl : suffixLeft new_week.cols cum.cols "Naam" = ["Naam", w] := by
    unfold suffixLeft
    rw [hnw, hc]
    simp only [List.map_cons, List.map_nil]
    rw [if_neg (by rintro ⟨hn, _⟩; exact hn rfl)]
    rw [if_neg (by
      rintro ⟨_, hm⟩
      simp only [List.mem_cons, List.not_mem_nil, or_false] at hm
      rcases hm with h | h
      · exact hwN h
      · exact hwC h)]
  have hsr : suffixRight new_week.cols cum.cols "Naam" = ["Coach"] := by
    unfold suffixRight
    rw [hnw, hc]
    rw [show List.filter (fun c => !(c == "Naam")) ["Naam", "Coach"] = ["Coach"] by decide]
    simp only [List.map_cons, List.map_nil]
    rw [if_neg (by
      intro hm
      simp only [List.mem_cons, List.not_mem_nil, or_false] at hm
      rcases hm with h | h
      · exact absurd h (by decide)
      · exact hwC h.symm)]
  have hrees : ∀ br ∈ cum.rows,
      br.eraseIdx (cum.cols.findIdx (fun c2 => c2 == "Naam")) = [br.getD 1 none] := by
    intro br hbr
    rw [hc, findIdx_cons_self]
    exact eraseIdx_zero_of_len2 br (hlen br hbr)
  have hljr : leftJoinRows new_week cum "Naam" =
      new_week.rows.flatMap (fun nr =>
        let ms := cum.rows.filter (fun br =>
          cellMatch (nr.getD 0 none) (br.getD 0 none))
        if ms.isEmpty then [nr ++ [none]]
        else ms.map (fun br => nr ++ [br.getD 1 none])) := by
    unfold leftJoinRows
    apply List.flatMap_congr
    intro nr _
    simp only [hkeyL, hkeyR, hsr, List.length_cons, List.length_nil, List.replicate]
    congr 1
    apply List.map_congr_left
    intro br hbr
    rw [hrees br (List.mem_filter.mp hbr).1]
  have hpd : pdMerge .left new_week cum "Naam" =
      ⟨["Naam", w, "Coach"],
        new_week.rows.flatMap (fun nr =>
          let ms := cum.rows.filter (fun br =>
            cellMatch (nr.getD 0 none) (br.getD 0 none))
          if ms.isEmpty then [nr ++ [none]]
          else ms.map (fun br => nr ++ [br.getD 1 none]))⟩ := by
    unfold pdMerge
    rw [hsl, hsr, hljr]
    simp
  have hfil : (["Naam", w, "Coach"] : List String).filter
      (fun c => !(c == "Naam" || c == "Coach")) = [w] := by
    simp only [List.filter_cons, List.filter_nil]
    rw [show ((("Naam" : String) == "Naam" || ("Naam" : String) == "Coach") = true) by decide]
    rw [show (w == "Naam") = false from beq_eq_false_iff_ne.mpr hwN]
    rw [show (w == "Coach") = false from beq_eq_false_iff_ne.mpr hwC]
    rw [show ((("Coach" : String) == "Naam" || ("Coach" : String) == "Coach") = true) by decide]
    rfl
  have hkN : ∀ r : List Cell, keyCell ["Naam", w, "Coach"] "Naam" r = r.getD 0 none :=
    fun r => keyCell_head _ _ r
  have hkC : ∀ a : Cell, ∀ rt : List Cell,
      keyCell ["Naam", w, "Coach"] "Coach" (a :: rt) = rt.getD 1 none := by
    intro a rt
    unfold keyCell
    rw [findIdx_cons_ne _ _ _ (by decide), findIdx_cons_ne _ _ _ hwC, findIdx_cons_self]
    rfl
  have hkw : ∀ a : Cell, ∀ rt : List Cell,
      keyCell ["Naam", w, "Coach"] w (a :: rt) = rt.getD 0 none := by
    intro a rt
    unfold keyCell
    rw [findIdx_cons_ne _ _ _ (fun he => hwN he.symm), findIdx_cons_self]
    rfl
  have hfinal : selectCols
      (⟨["Naam", w, "Coach"],
        new_week.rows.flatMap (fun nr =>
          let ms := cum.rows.filter (fun br =>
            cellMatch (nr.getD 0 none) (br.getD 0 none))
          if ms.isEmpty then [nr ++ [none]]
          else ms.map (fun br => nr ++ [br.getD 1 none]))⟩ : DF)
      (["Naam", "Coach"] ++ [w])
      = ⟨["Naam", "Coach", w], baseRowsSpec cum new_week⟩ := by
    unfold selectCols
    simp only
    congr 1
    unfold baseRowsSpec
    rw [List.map_flatMap]
    apply List.flatMap_congr
    intro nr hnr
    obtain ⟨a0, a1, rfl⟩ := List.length_eq_two.mp (hlennew nr hnr)
    simp only
    by_cases hms : (cum.rows.filter (fun br =>
        cellMatch (([a0, a1] : List Cell).getD 0 none) (br.getD 0 none))).isEmpty
    · rw [if_pos hms, if_pos hms]
      simp only [List.map_cons, List.map_nil, List.cons_append, List.nil_append]
      rw [hkN, hkC, hkw]
      rfl
    · rw [if_neg hms, if_neg hms]
      rw [List.map_map]
      apply List.map_congr_left
      intro br _
      simp only [Function.comp_apply, List.cons_append, List.nil_append]
      simp only [List.map_cons, List.map_nil]
      rw [hkN, hkC, hkw]
      rfl
  unfold mergeBlock
  simp only [hens]
  rw [show ((cum.rows.isEmpty || (cum.cols == ["Naam", "Coach"])) = true) by
    rw [hc]; simp]
  simp only [if_true, ite_true]
  rw [hright2, hpd]
  simp only
  rw [hfil, hfinal]
  unfold sortByNaam
  rw [findIdx_cons_self]

/-! ### The episode calculator -/

theorem episodeMinutes_na_left (b : Value) : episodeMinutes Value.na b = 0 := by
  cases b <;> rfl

theorem episodeMinutes_na_right (a : Value) : episodeMinutes a Value.na = 0 := by
  cases a <;> rfl

theorem episodeMinutes_eq (a b : Value) (ha : a ≠ Value.na) (hb : b ≠ Value.na) :
    episodeMinutes a b =
      match parseIMp? (pyStr a), parseIMp? (pyStr b) with
      | some tin, some tout =>
          if (tin : ℤ) < (tout : ℤ) then (((tout : ℤ) - (tin : ℤ) : ℤ) : ℚ) else 0
      | _, _ => 0 := by
  cases a <;> cases b <;>
    first
      | rfl
      | exact absurd rfl ha
      | exact absurd rfl hb

theorem episodeMinutes_nonneg (a b : Value) : 0 ≤ episodeMinutes a b := by
  by_cases ha : a = Value.na
  · subst ha
    rw [episodeMinutes_na_left]
  by_cases hb : b = Value.na
  · subst hb
    rw [episodeMinutes_na_right]
  rw [episodeMinutes_eq a b ha hb]
  cases hp : parseIMp? (pyStr a) with
  | none => simp
  | some tin =>
    cases hq : parseIMp? (pyStr b) with
    | none => simp
    | some tout =>
      simp only
      split_ifs with h
      · exact Int.cast_nonneg.mpr (by omega)
      · exact le_refl 0

/-- C4: for every pair of check-in/check-out cells, the episode contributes
`out - in` minutes exactly when both cells are present, both parse with
`strptime("%I:%M%p")`, and `out > in`; in every other case it contributes
exactly `0`; the contribution, and hence every row total of
`calculate_minutes`, is never negative and never an error (the function is
total). -/
theorem c4_episode_contribution :
    (∀ cin cout : Value,
      0 ≤ episodeMinutes cin cout
      ∧ (∀ tin tout : ℕ, cin ≠ Value.na → cout ≠ Value.na →
          parseIMp? (pyStr cin) = some tin → parseIMp? (pyStr cout) = some tout →
          tin < tout → episodeMinutes cin cout = ((tout : ℚ) - (tin : ℚ)))
      ∧ ((cin = Value.na ∨ cout = Value.na
          ∨ parseIMp? (pyStr cin) = none ∨ parseIMp? (pyStr cout) = none
          ∨ (∀ tin tout : ℕ, parseIMp? (pyStr cin) = some tin →
              parseIMp? (pyStr cout) = some tout → tout ≤ tin)) →
          episodeMinutes cin cout = 0))
    ∧ (∀ (pairs : List (ℕ × ℕ)) (row : List Value), 0 ≤ calculate_minutes pairs row) := by
  have hfold : ∀ (pairs : List (ℕ × ℕ)) (row : List Value) (acc : ℚ), 0 ≤ acc →
      0 ≤ pairs.foldl
        (fun a p => a + episodeMinutes (row.getD p.1 .na) (row.getD p.2 .na)) acc := by
    intro pairs
    induction pairs with
    | nil => intro row acc h; exact h
    | cons p ps ih =>
      intro row acc h
      exact ih row _ (add_nonneg h (episodeMinutes_nonneg _ _))
  refine ⟨?_, fun pairs row => hfold pairs row 0 (le_refl 0)⟩
  intro cin cout
  refine ⟨episodeMinutes_nonneg cin cout, ?_, ?_⟩
  · intro tin tout ha hb hp hq hlt
    rw [episodeMinutes_eq cin cout ha hb]
    simp only [hp, hq]
    rw [if_pos (by exact_mod_cast hlt)]
    push_cast
    ring
  · intro hcase
    by_cases ha : cin = Value.na
    · subst ha
      rw [episodeMinutes_na_left]
    by_cases hb : cout = Value.na
    · subst hb
      rw [episodeMinutes_na_right]
    rw [episodeMinutes_eq cin cout ha hb]
    rcases hcase with h | h | h | h | h
    · exact absurd h ha
    · exact absurd h hb
    · simp [h]
    · simp [h]
    · cases hp : parseIMp? (pyStr cin) with
      | none => simp
      | some tin =>
        cases hq : parseIMp? (pyStr cout) with
        | none => simp
        | some tout =>
          simp only
          rw [if_neg (by
            have := h tin tout hp hq
            omega)]

/-- Witness for C4 at Scenario A: check-in `9:00AM`, check-out `5:30PM`
give 510 minutes, and a missing check-out gives 0. -/
theorem c4_episode_contribution_witness :
    episodeMinutes (Value.str "9:00AM") (Value.str "5:30PM")
        = ((1050 : ℕ) : ℚ) - ((540 : ℕ) : ℚ)
      ∧ episodeMinutes (Value.str "9:00AM") Value.na = 0 :=
  ⟨(c4_episode_contribution.1 (Value.str "9:00AM") (Value.str "5:30PM")).2.1 540 1050
      (by decide) (by decide) (by decide) (by decide) (by decide),
    (c4_episode_contribution.1 (Value.str "9:00AM") Value.na).2.2 (Or.inr (Or.inl rfl))⟩

/-- C3 counterexample: `cell_to_minutes` maps the plain number `-2`
(two negative hours) to `-120.0`, a negative result, so the claimed bound
`≥ 0` for every input is false. -/
theorem c3_counterexample :
    cell_to_minutes (Value.num (-2)) = -120 ∧ cell_to_minutes (Value.num (-2)) < 0 := by
  have h : cell_to_minutes (Value.num (-2)) = -120 := by
    show (-2 : ℚ) * 60 = -120
    norm_num
  exact ⟨h, by rw [h]; norm_num⟩

/-- C3 amended: `cell_to_minutes` is total and never raises; a missing value
and every string whose colon-parse and decimal-parse both fail yield exactly
`0.0`; but the result is not always `≥ 0` — negative numeric inputs yield
negative minutes. -/
theorem c3_total_amended (s : String)
    (h1 : (if (trimChars s.data).contains ':' then colonParse? (trimChars s.data) else none)
        = none)
    (h2 : pyFloat? ((trimChars s.data).map (fun c => if c == ',' then '.' else c)) = none) :
    cell_to_minutes (Value.str s) = 0 ∧ cell_to_minutes Value.na = 0
      ∧ ¬ (∀ v : Value, 0 ≤ cell_to_minutes v) := by
  refine ⟨?_, rfl, ?_⟩
  · show (match (if (trimChars s.data).contains ':' then colonParse? (trimChars s.data)
        else none) with
      | some r => r
      | none => floatFallback (trimChars s.data)) = (0 : ℚ)
    rw [h1]
    show floatFallback (trimChars s.data) = (0 : ℚ)
    unfold floatFallback
    rw [h2]
  · intro hall
    have hneg := hall (Value.num (-2))
    rw [show cell_to_minutes (Value.num (-2)) = -120 from by
      show (-2 : ℚ) * 60 = -120
      norm_num] at hneg
    norm_num at hneg

/-- Witness for C3 amended at the unparseable string `"abc"`. -/
theorem c3_total_amended_witness :
    cell_to_minutes (Value.str "abc") = 0 ∧ cell_to_minutes Value.na = 0
      ∧ ¬ (∀ v : Value, 0 ≤ cell_to_minutes v) :=
  c3_total_amended "abc" (by decide) (by decide)

/-- C9 counterexample: the valid `H:MM` string `"01:30"` has normalized
minutes (30 < 60) and parses to 90 minutes, but formatting 90 yields
`"1:30"`, not `"01:30"` — leading-zero hours do not round-trip. -/
theorem c9_counterexample :
    from_hhmm "01:30" = some 90
      ∧ format_minutes_to_hhmm (some ((90 : ℤ) : ℚ)) = "1:30"
      ∧ ("1:30" : String) ≠ "01:30" ∧ (30 : ℕ) < 60 := by
  refine ⟨by decide, ?_, by decide, by decide⟩
  rw [show ((90 : ℤ) : ℚ) = ((1 * 60 + ((30 : ℕ) : ℤ) : ℤ) : ℚ) by norm_num]
  rw [format_hhmm_exact 1 30 (by norm_num)]
  decide

/-- C9 amended: restricted to canonically rendered `H:MM` strings — hours
printed as Python `str(int)` with no leading zeros, minutes exactly two
digits with `0 ≤ m < 60` — the round trip holds: the inverse parser returns
`h*60+m` and formatting that value returns the same string. -/
theorem c9_roundtrip_amended (h : ℤ) (m : ℕ) (hm : m < 60) :
    from_hhmm (hhmmStr h m) = some (h * 60 + m)
      ∧ format_minutes_to_hhmm (some ((h * 60 + (m : ℤ) : ℤ) : ℚ)) = hhmmStr h m :=
  ⟨from_hhmm_hhmmStr h m, format_hhmm_exact h m hm⟩

/-- Witness for C9 amended at `8:30` (Scenario A's total). -/
theorem c9_roundtrip_amended_witness :
    from_hhmm (hhmmStr 8 30) = some (8 * 60 + (30 : ℕ))
      ∧ format_minutes_to_hhmm (some ((8 * 60 + ((30 : ℕ) : ℤ) : ℤ) : ℚ)) = hhmmStr 8 30 :=
  c9_roundtrip_amended 8 30 (by decide)

theorem pyRound_nonpos (q : ℚ) (hq : q < 0) : pyRound q ≤ 0 := by
  have hf : ⌊q⌋ ≤ -1 := by
    have hlt : ⌊q⌋ < 0 := Int.floor_lt.mpr (by exact_mod_cast hq)
    omega
  simp only [pyRound]
  split_ifs <;> omega

/-- C10 counterexample: `-1/5` is a finite negative minutes value, yet
`round(-0.2) = 0`, the hours field is `0` (not a negative number), and the
formatter prints `"0:00"`. -/
theorem c10_counterexample :
    (-1/5 : ℚ) < 0 ∧ (pyRound (-1/5 : ℚ)).fdiv 60 = 0
      ∧ format_minutes_to_hhmm (some (-1/5 : ℚ)) = "0:00" := by
  have hf : ⌊(-1/5 : ℚ)⌋ = -1 := by
    rw [Int.floor_eq_iff]
    constructor <;> norm_num
  have hr : pyRound (-1/5 : ℚ) = 0 := by
    unfold pyRound
    rw [hf]
    rw [if_neg (by norm_num), if_pos (by norm_num)]
    norm_num
  refine ⟨by norm_num, ?_, ?_⟩
  · rw [hr]
    decide
  · rw [format_some, hr]
    decide

/-- C10 amended: for every finite negative minutes value the formatter does
not raise and uses Python floor-division semantics on the rounded value:
hours is the true floor of `round(q)/60` (always `≤ 0`, and negative exactly
when `round(q) < 0` — it is `0`, not negative, when `-0.5 ≤ q < 0`), and the
minutes field `round(q) mod 60` lies in `0..59`. -/
theorem c10_negative_format_amended (q : ℚ) (hq : q < 0) :
    format_minutes_to_hhmm (some q)
        = intRepr ((pyRound q).fdiv 60) ++ ":" ++ pad2 ((pyRound q).fmod 60)
      ∧ (pyRound q).fdiv 60 = ⌊((pyRound q : ℤ) : ℚ) / 60⌋
      ∧ 0 ≤ (pyRound q).fmod 60 ∧ (pyRound q).fmod 60 < 60
      ∧ (pyRound q).fdiv 60 ≤ 0
      ∧ (pyRound q < 0 → (pyRound q).fdiv 60 < 0) := by
  have ht : pyRound q ≤ 0 := pyRound_nonpos q hq
  have h60 : (0 : ℚ) < 60 := by norm_num
  have hfdiv : (pyRound q).fdiv 60 = ⌊((pyRound q : ℤ) : ℚ) / 60⌋ := by
    rw [Int.fdiv_eq_ediv _ (by norm_num : (0 : ℤ) ≤ 60)]
    symm
    rw [Int.floor_eq_iff]
    constructor
    · rw [le_div_iff₀ h60]
      exact_mod_cast (by omega : (pyRound q / 60) * 60 ≤ pyRound q)
    · rw [div_lt_iff₀ h60]
      exact_mod_cast (by omega : pyRound q < (pyRound q / 60 + 1) * 60)
  refine ⟨format_some q, hfdiv, Int.fmod_nonneg' _ (by norm_num),
    Int.fmod_lt_of_pos _ (by norm_num), ?_, ?_⟩
  · rw [Int.fdiv_eq_ediv _ (by norm_num : (0 : ℤ) ≤ 60)]
    omega
  · intro hneg
    rw [Int.fdiv_eq_ediv _ (by norm_num : (0 : ℤ) ≤ 60)]
    omega

/-- Witness for C10 amended at `-30` minutes, which formats as `"-1:30"`. -/
theorem c10_negative_format_amended_witness :
    format_minutes_to_hhmm (some ((-30 : ℤ) : ℚ)) = "-1:30"
      ∧ 0 ≤ (pyRound ((-30 : ℤ) : ℚ)).fmod 60 ∧ (pyRound ((-30 : ℤ) : ℚ)).fmod 60 < 60 := by
  have h := c10_negative_format_amended ((-30 : ℤ) : ℚ) (by simp)
  refine ⟨?_, h.2.2.1, h.2.2.2.1⟩
  rw [h.1, pyRound_intCast]
  decide

/-! ### The per-student aggregation -/

/-- C2 counterexample: a raw table with 31 columns and three rows whose name
cells are `"Ana"`, missing, and `"Ana "` yields three per-student rows named
`"Ana"`, `"nan"`, `"Ana"`: the missing name is kept as the string `"nan"`
(it is not skipped) and the two rows trimming to `"Ana"` are not summed into
one row, so the aggregator does not produce one row per distinct trimmed
non-empty name. -/
theorem c2_counterexample :
    ((perStudent ⟨List.replicate 31 "c",
        [[Value.str "r1", Value.str "Ana"] ++ List.replicate 29 Value.na,
         [Value.str "r2", Value.na] ++ List.replicate 29 Value.na,
         [Value.str "r3", Value.str "Ana "] ++ List.replicate 29 Value.na]⟩).map Prod.fst)
      = ["Ana", "nan", "Ana"] := by
  decide

/-- C2 amended: the aggregator produces one row per raw table row whose
stringified, trimmed name is non-empty, in row order and each with that
row's own minutes sum; rows with the same trimmed name are not combined,
and a missing name cell is stringified to `"nan"` and kept. -/
theorem c2_perstudent_amended (df : RawDF) :
    perStudent df
        = (df.rows.filter (fun r => decide (0 < (rowNameStr r).length))).map
            (fun r => (rowNameStr r, rowMinutes r))
      ∧ (perStudent df).length
          = df.rows.countP (fun r => decide (0 < (rowNameStr r).length))
      ∧ pyStr Value.na = "nan" := by
  have h1 : perStudent df
      = (df.rows.filter (fun r => decide (0 < (rowNameStr r).length))).map
          (fun r => (rowNameStr r, rowMinutes r)) := by
    show List.filter (fun p => decide (0 < p.1.length))
        ((df.rows.map rowNameStr).zip (df.rows.map rowMinutes))
      = (df.rows.filter (fun r => decide (0 < (rowNameStr r).length))).map
          (fun r => (rowNameStr r, rowMinutes r))
    rw [List.zip_map']
    rw [List.filter_map]
    rfl
  refine ⟨h1, ?_, rfl⟩
  rw [h1, List.length_map, List.countP_eq_length_filter]

/-- C8: an uploaded table with fewer than 31 columns is rejected before any
aggregation (no per-student result is produced) and the session-state ledger
is left completely unchanged. -/
theorem c8_reject_small_tables (df : RawDF) (cum : DF) (week_label : String)
    (h : df.cols.length < 31) :
    processUpload df cum week_label = none ∧ uploadState df cum week_label = cum := by
  have hp : processUpload df cum week_label = none := by
    unfold processUpload
    rw [if_pos h]
  refine ⟨hp, ?_⟩
  unfold uploadState
  rw [hp]

/-- Witness for C8: a 30-column table is rejected and a concrete ledger is
unchanged. -/
theorem c8_reject_small_tables_witness :
    processUpload ⟨List.replicate 30 "c", []⟩ ⟨["Naam", "Coach"], []⟩ "W01-2025" = none
      ∧ uploadState ⟨List.replicate 30 "c", []⟩ ⟨["Naam", "Coach"], []⟩ "W01-2025"
          = ⟨["Naam", "Coach"], []⟩ :=
  c8_reject_small_tables _ _ _ (by decide)

/-! ### The merge claims -/

theorem insertionSort_rowLe_sorted (X : List (List Cell)) :
    (List.insertionSort (rowLe 0) X).Pairwise
      (fun a b => cellLe (a.getD 0 none) (b.getD 0 none) = true) := by
  haveI : IsTotal (List Cell) (rowLe 0) := ⟨rowLe_total 0⟩
  haveI : IsTrans (List Cell) (rowLe 0) := ⟨rowLe_trans 0⟩
  exact List.sorted_insertionSort (rowLe 0) X

theorem getD_replicate_none (k i : ℕ) (h : i < k) :
    (List.replicate k (none : Cell)).getD i none = none := by
  rw [List.getD_eq_getElem?_getD, List.getElem?_replicate]
  simp [h]

/-- C5: after every merge of a well-formed ledger with a fresh-label week
frame, the result's first two columns are `Naam` then `Coach`, the week
columns keep the order they were first introduced with the new label
appended at the end, and the rows are sorted ascending by the `Naam` cell
(stable sort). -/
theorem c5_order_invariant (cum new_week : DF) (wks : List String) (w : String)
    (hc : cum.cols = "Naam" :: "Coach" :: wks)
    (hnd : cum.cols.Nodup)
    (hnw : new_week.cols = ["Naam", w])
    (hfresh : w ∉ cum.cols)
    (hlen : ∀ r ∈ cum.rows, r.length = 2 + wks.length)
    (hlennew : ∀ r ∈ new_week.rows, r.length = 2)
    (hne : wks ≠ [] → cum.rows ≠ []) :
    (mergeBlock cum new_week).cols = "Naam" :: "Coach" :: (wks ++ [w])
      ∧ (mergeBlock cum new_week).rows.Pairwise
          (fun a b => cellLe (a.getD 0 none) (b.getD 0 none) = true) := by
  have hfr2 : w ≠ "Naam" ∧ w ≠ "Coach" := by
    rw [hc] at hfresh
    simp only [List.mem_cons, not_or] at hfresh
    exact ⟨hfresh.1, hfresh.2.1⟩
  cases hwks : wks with
  | nil =>
    subst hwks
    have heq := mergeBlock_base_eq cum new_week w (by rw [hc]) hnw hfr2.1 hfr2.2
      (fun r hr => by rw [hlen r hr]; rfl) hlennew
    rw [heq]
    exact ⟨rfl, insertionSort_rowLe_sorted _⟩
  | cons w0 wt =>
    have heq := mergeBlock_outer_eq cum new_week wks w (hwks ▸ hc) (by rw [hwks]; simp)
      (hne (by rw [hwks]; simp)) hnd hnw hfresh hlen hlennew
    rw [hwks] at heq
    rw [heq]
    exact ⟨rfl, insertionSort_rowLe_sorted _⟩

/-- Witness for C5 at a one-student ledger with one prior week and a
one-student fresh-week frame. -/
theorem c5_order_invariant_witness :
    (mergeBlock ⟨["Naam", "Coach", "W01-2025"], [[some "Bob", some "", some "2:00"]]⟩
        ⟨["Naam", "W02-2025"], [[some "Ana", some "1:00"]]⟩).cols
        = "Naam" :: "Coach" :: (["W01-2025"] ++ ["W02-2025"])
      ∧ (mergeBlock ⟨["Naam", "Coach", "W01-2025"], [[some "Bob", some "", some "2:00"]]⟩
          ⟨["Naam", "W02-2025"], [[some "Ana", some "1:00"]]⟩).rows.Pairwise
            (fun a b => cellLe (a.getD 0 none) (b.getD 0 none) = true) :=
  c5_order_invariant _ _ ["W01-2025"] "W02-2025" (by decide) (by decide) (by decide)
    (by decide) (by decide) (by decide) (by decide)

theorem cellMatch_ne_some (c : Cell) (n : String) (h : c ≠ some n) :
    cellMatch c (some n) = false := by
  cases c with
  | none => rfl
  | some x =>
    show (x == n) = false
    rw [beq_eq_false_iff_ne]
    intro he
    exact h (by rw [he])

theorem sum_ite_eq_countP {α : Type} (q : α → Bool) (l : List α) :
    (l.map (fun x => if q x then 1 else 0)).sum = l.countP q := by
  induction l with
  | nil => rfl
  | cons a t ih =>
    simp only [List.map_cons, List.sum_cons, List.countP_cons, ih]
    by_cases h : q a = true
    · simp only [if_pos h]
      omega
    · simp only [if_neg h]
      omega

/-- C7: merging a week table that mentions a brand-new student name exactly
once adds exactly one row for that name, whose `Coach` cell is empty and
whose cells in all previously existing week columns are empty. -/
theorem c7_new_student_row (cum new_week : DF) (wks : List String) (w n : String)
    (hc : cum.cols = "Naam" :: "Coach" :: wks)
    (hnd : cum.cols.Nodup)
    (hnw : new_week.cols = ["Naam", w])
    (hfresh : w ∉ cum.cols)
    (hlen : ∀ r ∈ cum.rows, r.length = 2 + wks.length)
    (hlennew : ∀ r ∈ new_week.rows, r.length = 2)
    (hne : wks ≠ [] → cum.rows ≠ [])
    (hnotin : ∀ lr ∈ cum.rows, lr.getD 0 none ≠ some n)
    (honce : new_week.rows.countP (fun rr => rr.getD 0 none == some n) = 1) :
    (mergeBlock cum new_week).rows.countP (fun r => r.getD 0 none == some n) = 1
      ∧ ∀ r ∈ (mergeBlock cum new_week).rows, r.getD 0 none = some n →
          r.getD 1 none = none ∧ ∀ i, i < wks.length → r.getD (2 + i) none = none := by
  have hfr2 : w ≠ "Naam" ∧ w ≠ "Coach" := by
    have hfr := hc ▸ hfresh
    simp only [List.mem_cons, not_or] at hfr
    exact ⟨hfr.1, hfr.2.1⟩
  cases hwks : wks with
  | nil =>
    subst hwks
    have heq := mergeBlock_base_eq cum new_week w (by rw [hc]) hnw hfr2.1 hfr2.2
      (fun r hr => by rw [hlen r hr]; rfl) hlennew
    rw [heq]
    simp only
    have hperm : (List.insertionSort (rowLe 0) (baseRowsSpec cum new_week)).Perm
        (baseRowsSpec cum new_week) := List.perm_insertionSort _ _
    have hmsnil : ∀ nr : List Cell, nr.getD 0 none = some n →
        cum.rows.filter (fun br => cellMatch (nr.getD 0 none) (br.getD 0 none)) = [] := by
      intro nr hname
      rw [List.filter_eq_nil_iff]
      intro br hbr
      rw [hname]
      rw [show cellMatch (some n) (br.getD 0 none) = false from ?_]
      · simp
      cases hbr0 : br.getD 0 none with
      | none => rfl
      | some x =>
        show (n == x) = false
        rw [beq_eq_false_iff_ne]
        intro he
        exact hnotin br hbr (by rw [hbr0, he])
    constructor
    · rw [hperm.countP_eq]
      unfold baseRowsSpec
      rw [List.countP_flatMap]
      have hmap : ∀ nr ∈ new_week.rows,
          (List.countP (fun r => r.getD 0 none == some n) ∘ (fun nr =>
            let ms := cum.rows.filter (fun br =>
              cellMatch (nr.getD 0 none) (br.getD 0 none))
            if ms.isEmpty then [[nr.getD 0 none, none, nr.getD 1 none]]
            else ms.map (fun br => [nr.getD 0 none, br.getD 1 none, nr.getD 1 none]))) nr
          = if (nr.getD 0 none == some n) then 1 else 0 := by
        intro nr _
        simp only [Function.comp_apply]
        by_cases hname : nr.getD 0 none = some n
        · rw [hmsnil nr hname]
          simp only [List.isEmpty_nil, if_true, ite_true]
          rw [hname]
          simp [List.countP_cons]
        · have hbeq : (nr.getD 0 none == some n) = false := beq_eq_false_iff_ne.mpr hname
          have hname0 : ¬ nr[0]?.getD none = some n := by
            rw [← List.getD_eq_getElem?_getD]
            exact hname
          rw [hbeq]
          simp only [Bool.false_eq_true, if_false, ite_false]
          by_cases hms : (cum.rows.filter (fun br =>
              cellMatch (nr.getD 0 none) (br.getD 0 none))).isEmpty
          · rw [if_pos hms]
            simp [List.countP_cons, hname0]
          · rw [if_neg hms]
            rw [List.countP_map]
            rw [List.countP_eq_zero]
            intro br _
            simp [hname0]
      rw [List.map_congr_left hmap, sum_ite_eq_countP]
      exact honce
    · intro r hr hname
      have hrmem : r ∈ baseRowsSpec cum new_week := hperm.mem_iff.mp hr
      unfold baseRowsSpec at hrmem
      obtain ⟨nr, hnr, hrin⟩ := List.mem_flatMap.mp hrmem
      simp only at hrin
      by_cases hms : (cum.rows.filter (fun br =>
          cellMatch (nr.getD 0 none) (br.getD 0 none))).isEmpty
      · rw [if_pos hms] at hrin
        simp only [List.mem_cons, List.not_mem_nil, or_false] at hrin
        rw [hrin]
        refine ⟨rfl, ?_⟩
        intro i hi
        simp at hi
      · rw [if_neg hms] at hrin
        obtain ⟨br, hbr, hreq⟩ := List.mem_map.mp hrin
        have hname2 : nr.getD 0 none = some n := by
          rw [← hreq] at hname
          exact hname
        rw [hmsnil nr hname2] at hbr
        exact absurd hbr (List.not_mem_nil br)
  | cons w0 wt =>
    have heq := mergeBlock_outer_eq cum new_week (w0 :: wt) w (hwks ▸ hc) (by simp)
      (hne (by rw [hwks]; simp)) hnd hnw hfresh (hwks ▸ hlen) hlennew
    rw [heq]
    simp only
    set wks2 : List String := w0 :: wt with hwks2
    have hperm : (List.insertionSort (rowLe 0) (outerRowsSpec cum new_week wks2.length)).Perm
        (outerRowsSpec cum new_week wks2.length) := List.perm_insertionSort _ _
    have hnameA : ∀ r ∈ cum.rows.flatMap (fun lr =>
        let ms := new_week.rows.filter (fun rr =>
          cellMatch (lr.getD 0 none) (rr.getD 0 none))
        if ms.isEmpty then [lr ++ [none]]
        else ms.map (fun rr => lr ++ [rr.getD 1 none])),
        r.getD 0 none ≠ some n := by
      intro r hr
      obtain ⟨lr, hlr, hrin⟩ := List.mem_flatMap.mp hr
      have hlrlen : 0 < lr.length := by
        rw [hlen lr hlr]
        omega
      simp only at hrin
      by_cases hms : (new_week.rows.filter (fun rr =>
          cellMatch (lr.getD 0 none) (rr.getD 0 none))).isEmpty
      · rw [if_pos hms] at hrin
        simp only [List.mem_cons, List.not_mem_nil, or_false] at hrin
        rw [hrin, List.getD_append _ _ _ _ hlrlen]
        exact hnotin lr hlr
      · rw [if_neg hms] at hrin
        obtain ⟨rr, _, hreq⟩ := List.mem_map.mp hrin
        rw [← hreq, List.getD_append _ _ _ _ hlrlen]
        exact hnotin lr hlr
    have hcntA : (cum.rows.flatMap (fun lr =>
        let ms := new_week.rows.filter (fun rr =>
          cellMatch (lr.getD 0 none) (rr.getD 0 none))
        if ms.isEmpty then [lr ++ [none]]
        else ms.map (fun rr => lr ++ [rr.getD 1 none]))).countP
          (fun r => r.getD 0 none == some n) = 0 := by
      rw [List.countP_eq_zero]
      intro r hr
      rw [beq_eq_false_iff_ne.mpr (hnameA r hr)]
      simp
    have hcntB : ((new_week.rows.filter (fun rr =>
        cum.rows.all (fun lr => !cellMatch (lr.getD 0 none) (rr.getD 0 none)))).map
          (fun rr => rr.getD 0 none :: none ::
            (List.replicate wks2.length none ++ [rr.getD 1 none]))).countP
          (fun r => r.getD 0 none == some n) = 1 := by
      rw [List.countP_map]
      rw [show (fun r => r.getD 0 none == some n) ∘ (fun (rr : List Cell) =>
          rr.getD 0 none :: none :: (List.replicate wks2.length none ++ [rr.getD 1 none]))
        = fun rr => rr.getD 0 none == some n from rfl]
      rw [List.countP_filter]
      rw [List.countP_congr ?hiff]
      · exact honce
      intro rr hrr
      constructor
      · intro hand
        rw [Bool.and_eq_true] at hand
        exact hand.1
      · intro hname
        rw [Bool.and_eq_true]
        refine ⟨hname, ?_⟩
        rw [List.all_eq_true]
        intro lr hlr
        rw [beq_iff_eq] at hname
        rw [hname, cellMatch_ne_some _ _ (hnotin lr hlr)]
        rfl
    constructor
    · rw [hperm.countP_eq]
      unfold outerRowsSpec
      rw [List.countP_append, hcntA, hcntB]
    · intro r hr hname
      have hrmem : r ∈ outerRowsSpec cum new_week wks2.length := hperm.mem_iff.mp hr
      unfold outerRowsSpec at hrmem
      rcases List.mem_append.mp hrmem with hA | hB
      · exact absurd hname (hnameA r hA)
      · obtain ⟨rr, _, hreq⟩ := List.mem_map.mp hB
        rw [← hreq]
        refine ⟨rfl, ?_⟩
        intro i hi
        rw [show 2 + i = i + 1 + 1 from by omega]
        rw [List.getD_cons_succ, List.getD_cons_succ]
        rw [List.getD_append _ _ _ _ (by rw [List.length_replicate]; exact hi)]
        exact getD_replicate_none _ _ hi

/-- Witness for C7: merging a fresh week naming only the new student `Ana`
into a one-row ledger for `Bob` adds exactly one `Ana` row with empty
`Coach` and an empty cell in the prior week column. -/
theorem c7_new_student_row_witness :
    (mergeBlock ⟨["Naam", "Coach", "W01-2025"], [[some "Bob", some "X", some "2:00"]]⟩
        ⟨["Naam", "W02-2025"], [[some "Ana", some "1:00"]]⟩).rows.countP
          (fun r => r.getD 0 none == some "Ana") = 1
      ∧ ∀ r ∈ (mergeBlock ⟨["Naam", "Coach", "W01-2025"], [[some "Bob", some "X", some "2:00"]]⟩
          ⟨["Naam", "W02-2025"], [[some "Ana", some "1:00"]]⟩).rows,
          r.getD 0 none = some "Ana" →
            r.getD 1 none = none ∧ ∀ i, i < (["W01-2025"] : List String).length →
              r.getD (2 + i) none = none :=
  c7_new_student_row _ _ ["W01-2025"] "W02-2025" "Ana" (by decide) (by decide) (by decide)
    (by decide) (by decide) (by decide) (by decide) (by decide) (by decide)

/-- C6 counterexample: a ledger whose columns are exactly `Naam, Coach` with
one row for `Bob` (Coach `X`) goes through the left-join branch; merging a
week frame naming only `Ana` drops Bob's row entirely, so Bob's Coach value
is not carried through — the merge result contains no row for Bob. -/
theorem c6_counterexample :
    (⟨["Naam", "Coach"], [[some "Bob", some "X"]]⟩ : DF).rows = [[some "Bob", some "X"]]
      ∧ (mergeBlock ⟨["Naam", "Coach"], [[some "Bob", some "X"]]⟩
            ⟨["Naam", "W01-2025"], [[some "Ana", some "1:00"]]⟩).rows
          = [[some "Ana", none, some "1:00"]]
      ∧ ∀ r ∈ (mergeBlock ⟨["Naam", "Coach"], [[some "Bob", some "X"]]⟩
            ⟨["Naam", "W01-2025"], [[some "Ana", some "1:00"]]⟩).rows,
          r.getD 0 none ≠ some "Bob" := by
  refine ⟨rfl, by decide, by decide⟩

/-- C6 amended: in the outer-join branch (a ledger with at least one week
column and at least one row, merged with a fresh-label week frame), every
ledger row's name reappears with its Coach cell unchanged, and every result
row whose name is not in the ledger has an empty Coach cell. -/
theorem c6_coach_frame_amended (cum new_week : DF) (wks : List String) (w : String)
    (hc : cum.cols = "Naam" :: "Coach" :: wks)
    (hwks : wks ≠ [])
    (hrows : cum.rows ≠ [])
    (hnd : cum.cols.Nodup)
    (hnw : new_week.cols = ["Naam", w])
    (hfresh : w ∉ cum.cols)
    (hlen : ∀ r ∈ cum.rows, r.length = 2 + wks.length)
    (hlennew : ∀ r ∈ new_week.rows, r.length = 2) :
    (∀ lr ∈ cum.rows, ∃ r ∈ (mergeBlock cum new_week).rows,
        r.getD 0 none = lr.getD 0 none ∧ r.getD 1 none = lr.getD 1 none)
      ∧ (∀ r ∈ (mergeBlock cum new_week).rows,
          (∀ lr ∈ cum.rows, lr.getD 0 none ≠ r.getD 0 none) → r.getD 1 none = none) := by
  have heq := mergeBlock_outer_eq cum new_week wks w hc hwks hrows hnd hnw hfresh hlen hlennew
  rw [heq]
  simp only
  have hperm : (List.insertionSort (rowLe 0) (outerRowsSpec cum new_week wks.length)).Perm
      (outerRowsSpec cum new_week wks.length) := List.perm_insertionSort _ _
  constructor
  · intro lr hlr
    have hl0 : 0 < lr.length := by
      rw [hlen lr hlr]
      omega
    have hl1 : 1 < lr.length := by
      rw [hlen lr hlr]
      omega
    have hspec : ∃ r ∈ outerRowsSpec cum new_week wks.length,
        r.getD 0 none = lr.getD 0 none ∧ r.getD 1 none = lr.getD 1 none := by
      unfold outerRowsSpec
      by_cases hms : (new_week.rows.filter (fun rr =>
          cellMatch (lr.getD 0 none) (rr.getD 0 none))).isEmpty
      · refine ⟨lr ++ [none], ?_, ?_, ?_⟩
        · apply List.mem_append.mpr
          left
          apply List.mem_flatMap.mpr
          refine ⟨lr, hlr, ?_⟩
          simp only
          rw [if_pos hms]
          simp
        · rw [List.getD_append _ _ _ _ hl0]
        · rw [List.getD_append _ _ _ _ hl1]
      · obtain ⟨m0, ms2, hms2⟩ : ∃ m0 ms2, (new_week.rows.filter (fun rr =>
            cellMatch (lr.getD 0 none) (rr.getD 0 none))) = m0 :: ms2 := by
          cases hfl : (new_week.rows.filter (fun rr =>
              cellMatch (lr.getD 0 none) (rr.getD 0 none))) with
          | nil => rw [hfl] at hms; exact absurd rfl hms
          | cons a t => exact ⟨a, t, rfl⟩
        refine ⟨lr ++ [m0.getD 1 none], ?_, ?_, ?_⟩
        · apply List.mem_append.mpr
          left
          apply List.mem_flatMap.mpr
          refine ⟨lr, hlr, ?_⟩
          simp only
          rw [if_neg hms, hms2]
          exact List.mem_map.mpr ⟨m0, by simp, rfl⟩
        · rw [List.getD_append _ _ _ _ hl0]
        · rw [List.getD_append _ _ _ _ hl1]
    obtain ⟨r, hrs, hp⟩ := hspec
    exact ⟨r, hperm.mem_iff.mpr hrs, hp⟩
  · intro r hr hnoname
    have hrmem : r ∈ outerRowsSpec cum new_week wks.length := hperm.mem_iff.mp hr
    unfold outerRowsSpec at hrmem
    rcases List.mem_append.mp hrmem with hA | hB
    · obtain ⟨lr, hlr, hrin⟩ := List.mem_flatMap.mp hA
      have hl0 : 0 < lr.length := by
        rw [hlen lr hlr]
        omega
      exfalso
      apply hnoname lr hlr
      simp only at hrin
      by_cases hms : (new_week.rows.filter (fun rr =>
          cellMatch (lr.getD 0 none) (rr.getD 0 none))).isEmpty
      · rw [if_pos hms] at hrin
        simp only [List.mem_cons, List.not_mem_nil, or_false] at hrin
        rw [hrin, List.getD_append _ _ _ _ hl0]
      · rw [if_neg hms] at hrin
        obtain ⟨rr, _, hreq⟩ := List.mem_map.mp hrin
        rw [← hreq, List.getD_append _ _ _ _ hl0]
    · obtain ⟨rr, _, hreq⟩ := List.mem_map.mp hB
      rw [← hreq]
      rfl

/-- Witness for C6 amended: in a one-prior-week ledger, Bob keeps Coach `X`
and the newly appearing Ana has an empty Coach. -/
theorem c6_coach_frame_amended_witness :
    (∀ lr ∈ (⟨["Naam", "Coach", "W01-2025"],
        [[some "Bob", some "X", some "2:00"]]⟩ : DF).rows,
      ∃ r ∈ (mergeBlock ⟨["Naam", "Coach", "W01-2025"], [[some "Bob", some "X", some "2:00"]]⟩
          ⟨["Naam", "W02-2025"], [[some "Ana", some "1:00"]]⟩).rows,
        r.getD 0 none = lr.getD 0 none ∧ r.getD 1 none = lr.getD 1 none)
      ∧ (∀ r ∈ (mergeBlock ⟨["Naam", "Coach", "W01-2025"], [[some "Bob", some "X", some "2:00"]]⟩
          ⟨["Naam", "W02-2025"], [[some "Ana", some "1:00"]]⟩).rows,
          (∀ lr ∈ (⟨["Naam", "Coach", "W01-2025"],
              [[some "Bob", some "X", some "2:00"]]⟩ : DF).rows,
            lr.getD 0 none ≠ r.getD 0 none) → r.getD 1 none = none) :=
  c6_coach_frame_amended _ _ ["W01-2025"] "W02-2025" (by decide) (by decide) (by decide)
    (by decide) (by decide) (by decide) (by decide) (by decide)

theorem append2_getLast (s : String) (a b : Char) :
    (s ++ String.mk [a, b]).data.getLast? = some b := by
  rw [String.data_append]
  rw [List.getLast?_append]
  rfl

theorem append2_ne (s t : String) (a b : Char) (hb : t.data.getLast? ≠ some b) :
    s ++ String.mk [a, b] ≠ t := by
  intro he
  apply hb
  rw [← he]
  exact append2_getLast s a b

theorem self_ne_append2 (s : String) (a b : Char) : s ≠ s ++ String.mk [a, b] := by
  intro he
  have hlen := congrArg String.length he
  rw [String.length_append] at hlen
  have h2 : (String.mk [a, b]).length = 2 := rfl
  omega

theorem mergeBlock_cols (cum new_week : DF)
    (hN : "Naam" ∈ cum.cols) (hC : "Coach" ∈ cum.cols)
    (hrows : cum.rows ≠ []) (hcne : cum.cols ≠ ["Naam", "Coach"]) :
    (mergeBlock cum new_week).cols
      = ["Naam", "Coach"] ++ (suffixLeft cum.cols new_week.cols "Naam"
          ++ suffixRight cum.cols new_week.cols "Naam").filter
            (fun c => !(c == "Naam" || c == "Coach")) := by
  unfold mergeBlock
  simp only [ensureBase_eq_self cum hN hC, List.isEmpty_eq_false.mpr hrows,
    beq_eq_false_iff_ne.mpr hcne, Bool.or_self, Bool.false_eq_true, if_false, ite_false]
  rfl

/-- C1 counterexample: re-uploading week label `W01-2025` into a ledger that
already has that column does not overwrite it — pandas suffixes the clash,
producing `W01-2025_x` (old values) and `W01-2025_y` (new values): the
column count grows from 3 to 4 and no column named `W01-2025` remains. -/
theorem c1_counterexample :
    mergeBlock ⟨["Naam", "Coach", "W01-2025"], [[some "Ana", some "CC", some "1:00"]]⟩
        ⟨["Naam", "W01-2025"], [[some "Ana", some "2:00"]]⟩
      = ⟨["Naam", "Coach", "W01-2025_x", "W01-2025_y"],
          [[some "Ana", some "CC", some "1:00", some "2:00"]]⟩
      ∧ "W01-2025" ∉ (mergeBlock ⟨["Naam", "Coach", "W01-2025"],
            [[some "Ana", some "CC", some "1:00"]]⟩
          ⟨["Naam", "W01-2025"], [[some "Ana", some "2:00"]]⟩).cols
      ∧ (mergeBlock ⟨["Naam", "Coach", "W01-2025"], [[some "Ana", some "CC", some "1:00"]]⟩
          ⟨["Naam", "W01-2025"], [[some "Ana", some "2:00"]]⟩).cols.length
        = (["Naam", "Coach", "W01-2025"] : List String).length + 1 := by
  refine ⟨by decide, by decide, by decide⟩

/-- C1 amended: merging a new week table under a `week_label` that already
exists as a ledger column does not overwrite it: the old column is renamed
`week_label_x` (keeping its position), the new values arrive as a fresh
`week_label_y` column appended at the end, the column count grows by one,
and no column named `week_label` remains. -/
theorem c1_existing_label_amended (cum new_week : DF) (wks : List String) (w : String)
    (hc : cum.cols = "Naam" :: "Coach" :: wks)
    (hrows : cum.rows ≠ [])
    (hnd : cum.cols.Nodup)
    (hnw : new_week.cols = ["Naam", w])
    (hw : w ∈ wks) :
    (mergeBlock cum new_week).cols
        = "Naam" :: "Coach" ::
            (wks.map (fun c => if c = w then c ++ "_x" else c) ++ [w ++ "_y"])
      ∧ (mergeBlock cum new_week).cols.length = cum.cols.length + 1
      ∧ w ∉ (mergeBlock cum new_week).cols := by
  have hcols : ("Naam" :: "Coach" :: wks).Nodup := hc ▸ hnd
  have h1 : "Naam" ∉ ("Coach" :: wks) := (List.nodup_cons.mp hcols).1
  have h2 : ("Coach" :: wks).Nodup := (List.nodup_cons.mp hcols).2
  have hCwks : "Coach" ∉ wks := (List.nodup_cons.mp h2).1
  have hNwks : "Naam" ∉ wks := fun hm => h1 (List.mem_cons.mpr (Or.inr hm))
  have hwN : w ≠ "Naam" := fun he => hNwks (he ▸ hw)
  have hwC : w ≠ "Coach" := fun he => hCwks (he ▸ hw)
  have hwksne : wks ≠ [] := fun he => by
    rw [he] at hw
    exact List.not_mem_nil w hw
  have hcne : cum.cols ≠ ["Naam", "Coach"] := by
    rw [hc]
    intro heq
    injection heq with _ h2a
    injection h2a with _ h3a
    exact hwksne h3a
  have hxs : ("_x" : String) = String.mk ['_', 'x'] := rfl
  have hys : ("_y" : String) = String.mk ['_', 'y'] := rfl
  have hsl : suffixLeft cum.cols new_week.cols "Naam"
      = "Naam" :: "Coach" :: wks.map (fun c => if c = w then c ++ "_x" else c) := by
    unfold suffixLeft
    rw [hc, hnw]
    simp only [List.map_cons]
    rw [if_neg (by rintro ⟨hn, _⟩; exact hn rfl)]
    rw [if_neg (by
      rintro ⟨_, hm⟩
      simp only [List.mem_cons, List.not_mem_nil, or_false] at hm
      rcases hm with h | h
      · exact absurd h (by decide)
      · exact hwC h.symm)]
    congr 1
    congr 1
    apply List.map_congr_left
    intro c hcm
    by_cases hcw : c = w
    · rw [if_pos ⟨fun he => hNwks (he ▸ hcm), by
        simp only [List.mem_cons]
        right
        left
        exact hcw⟩]
      rw [if_pos hcw]
    · rw [if_neg (by
        rintro ⟨_, hm⟩
        simp only [List.mem_cons, List.not_mem_nil, or_false] at hm
        rcases hm with h | h
        · exact hNwks (h ▸ hcm)
        · exact hcw h)]
      rw [if_neg hcw]
  have hsr : suffixRight cum.cols new_week.cols "Naam" = [w ++ "_y"] := by
    unfold suffixRight
    rw [hnw]
    rw [show List.filter (fun c => !(c == "Naam")) ["Naam", w] = [w] by
      simp [List.filter_cons, beq_eq_false_iff_ne.mpr hwN]]
    simp only [List.map_cons, List.map_nil]
    rw [if_pos (by rw [hc]; exact List.mem_cons.mpr (Or.inr (List.mem_cons.mpr (Or.inr hw))))]
  have hmapped_ne : ∀ e ∈ wks.map (fun c => if c = w then c ++ "_x" else c),
      e ≠ "Naam" ∧ e ≠ "Coach" := by
    intro e hem
    obtain ⟨c, hcm, hce⟩ := List.mem_map.mp hem
    by_cases hcw : c = w
    · rw [if_pos hcw] at hce
      subst hce
      rw [hxs]
      exact ⟨append2_ne _ _ _ _ (by decide), append2_ne _ _ _ _ (by decide)⟩
    · rw [if_neg hcw] at hce
      subst hce
      exact ⟨fun he => hNwks (he ▸ hcm), fun he => hCwks (he ▸ hcm)⟩
  have hfil : ((suffixLeft cum.cols new_week.cols "Naam"
      ++ suffixRight cum.cols new_week.cols "Naam").filter
        (fun c => !(c == "Naam" || c == "Coach")))
      = wks.map (fun c => if c = w then c ++ "_x" else c) ++ [w ++ "_y"] := by
    rw [hsl, hsr, List.filter_append]
    congr 1
    · rw [List.filter_cons, List.filter_cons]
      rw [show ((("Naam" : String) == "Naam" || ("Naam" : String) == "Coach") = true) by decide]
      rw [show ((("Coach" : String) == "Naam" || ("Coach" : String) == "Coach") = true) by decide]
      simp only [Bool.not_true, Bool.false_eq_true, if_false, ite_false]
      rw [List.filter_eq_self]
      intro e hem
      rw [beq_eq_false_iff_ne.mpr (hmapped_ne e hem).1]
      rw [beq_eq_false_iff_ne.mpr (hmapped_ne e hem).2]
      rfl
    · rw [List.filter_cons]
      rw [beq_eq_false_iff_ne.mpr (hys ▸ append2_ne w "Naam" '_' 'y' (by decide))]
      rw [beq_eq_false_iff_ne.mpr (hys ▸ append2_ne w "Coach" '_' 'y' (by decide))]
      rfl
  have hcolsfinal := mergeBlock_cols cum new_week (by rw [hc]; simp) (by rw [hc]; simp)
    hrows hcne
  rw [hfil] at hcolsfinal
  refine ⟨hcolsfinal, ?_, ?_⟩
  · rw [hcolsfinal, hc]
    simp [List.length_append, List.length_map]
  · rw [hcolsfinal]
    intro hmem
    simp only [List.cons_append, List.nil_append, List.mem_cons, List.mem_append,
      List.mem_singleton, List.mem_map] at hmem
    rcases hmem with he | he | ⟨c, hcm, hce⟩ | he
    · exact hwN he
    · exact hwC he
    · by_cases hcw : c = w
      · rw [if_pos hcw] at hce
        rw [hcw] at hce
        exact (hxs ▸ self_ne_append2 w '_' 'x') hce.symm
      · rw [if_neg hcw] at hce
        exact hcw hce
    · rcases he with he | he
      · exact (hys ▸ self_ne_append2 w '_' 'y') he
      · exact List.not_mem_nil w he

/-- Witness for C1 amended at a concrete one-week ledger re-uploading the
same label. -/
theorem c1_existing_label_amended_witness :
    (mergeBlock ⟨["Naam", "Coach", "W05-2025"], [[some "Zoe", some "", some "3:00"]]⟩
        ⟨["Naam", "W05-2025"], [[some "Zoe", some "4:00"]]⟩).cols
        = "Naam" :: "Coach" ::
            ((["W05-2025"] : List String).map
              (fun c => if c = "W05-2025" then c ++ "_x" else c) ++ ["W05-2025" ++ "_y"])
      ∧ (mergeBlock ⟨["Naam", "Coach", "W05-2025"], [[some "Zoe", some "", some "3:00"]]⟩
          ⟨["Naam", "W05-2025"], [[some "Zoe", some "4:00"]]⟩).cols.length
        = (["Naam", "Coach", "W05-2025"] : List String).length + 1
      ∧ "W05-2025" ∉ (mergeBlock ⟨["Naam", "Coach", "W05-2025"],
            [[some "Zoe", some "", some "3:00"]]⟩
          ⟨["Naam", "W05-2025"], [[some "Zoe", some "4:00"]]⟩).cols :=
  c1_existing_label_amended _ _ ["W05-2025"] "W05-2025" (by decide) (by decide) (by decide)
    (by decide) (by decide)
